import Mathlib

/-!
Verification of the manifest-checkers repository.

The development shallowly embeds the Go sources of the kustomize-build-dirs
tool and of the get-kustomize-build-base tool.  Paths are Go strings; the
stdlib functions path/filepath.Clean, Dir, Join and Base are embedded below
over the character list of a string, following their documented Unix
semantics (collapse separators, drop "." elements, resolve ".." against a
preceding element, keep leading ".." elements of a relative path, drop them
at the root).  External effects (os.Stat, os.Open, yaml.Unmarshal, exec of
kustomize and git) are parameters of the embedded functions, and the
unbounded upward directory walk is totalised with explicit fuel, returning
none when the fuel runs out.
-/

namespace ManifestCheckers

/-! ### Go path/filepath embedding -/

/-- Raw '/'-separated chunks of a path, as in Go strings.Split(s, \x22/\x22). -/
def rawSegs (s : List Char) : List (List Char) := s.splitOn '/'

/-- Whether the path is absolute (begins with the separator). -/
def isRootedC (s : List Char) : Bool := s.head? == some '/'

/-- One step of the Clean element processing: drop empty and "." elements,
resolve ".." against a preceding non-".." element, keep leading ".." on a
relative path and drop it on a rooted one. -/
def cleanStep (rooted : Bool) (acc : List (List Char)) (seg : List Char) :
    List (List Char) :=
  if seg = [] ∨ seg = ['.'] then acc
  else if seg = ['.', '.'] then
    match acc.getLast? with
    | some lastSeg => if lastSeg = ['.', '.'] then acc ++ [seg] else acc.dropLast
    | none => if rooted then acc else [['.', '.']]
  else acc ++ [seg]

def cleanSegs (rooted : Bool) (segs : List (List Char)) : List (List Char) :=
  segs.foldl (cleanStep rooted) []

/-- Render a cleaned element list back to a path. -/
def renderP (rooted : Bool) (segs : List (List Char)) : List Char :=
  if rooted then '/' :: List.intercalate ['/'] segs
  else if segs = [] then ['.']
  else List.intercalate ['/'] segs

/-- filepath.Clean on the character level. -/
def cleanC (s : List Char) : List Char :=
  if s = [] then ['.']
  else renderP (isRootedC s) (cleanSegs (isRootedC s) (rawSegs s))

/-- filepath.Join on the character level: drop leading empty elements, join
the rest with the separator, Clean the result; all-empty input gives the
empty path. -/
def joinC (elems : List (List Char)) : List Char :=
  match elems.dropWhile List.isEmpty with
  | [] => []
  | l => cleanC (List.intercalate ['/'] l)

/-- filepath.Dir on the character level: everything up to and including the
final separator, Cleaned; a path without separator has directory ".". -/
def dirC (s : List Char) : List Char :=
  let parts := rawSegs s
  if parts.length ≤ 1 then ['.']
  else cleanC (List.intercalate ['/'] parts.dropLast ++ ['/'])

/-- filepath.Base on the character level: strip trailing separators, then
the part after the final separator; "" has base "." and an all-separator
path has base "/". -/
def baseC (s : List Char) : List Char :=
  if s = [] then ['.']
  else
    let t := (s.reverse.dropWhile (· = '/')).reverse
    if t = [] then ['/']
    else (rawSegs t).getLastD []

/-- String-level wrappers. -/
def goClean (s : String) : String := ⟨cleanC s.data⟩

def goJoin (elems : List String) : String := ⟨joinC (elems.map String.data)⟩

def goDir (s : String) : String := ⟨dirC s.data⟩

def goBase (s : String) : String := ⟨baseC s.data⟩

example : goClean "a/b/.." = "a" := by decide
example : goClean "" = "." := by decide
example : goClean "/.." = "/" := by decide
example : goClean "../.." = "../.." := by decide
example : goClean "a//b/./c" = "a/b/c" := by decide
example : goDir "a/b/x.yaml" = "a/b" := by decide
example : goDir "x.yaml" = "." := by decide
example : goDir "." = "." := by decide
example : goDir "/a" = "/" := by decide
example : goJoin ["a/b", ".."] = "a" := by decide
example : goJoin [".", ".."] = ".." := by decide
example : goJoin ["repo", ".", "kustomization.yaml"] = "repo/kustomization.yaml" := by decide
example : goJoin ["", "a"] = "a" := by decide
example : goBase "a/b/kustomization.yaml" = "kustomization.yaml" := by decide
example : goBase "kustomization.yaml" = "kustomization.yaml" := by decide

/-! ### Marker search (kustomize-build-dirs main.go, findKustomizationRoot) -/

/-- Result of os.Stat on a path: the file exists, it does not exist, or the
probe failed with some other error. -/
inductive StatResult where
  | found
  | notFound
  | ioError (msg : String)
deriving DecidableEq

def kustomizationFileName : String := "kustomization.yaml"

/-- The probed location: filepath.Join(repoRoot, dir, kustomization.yaml). -/
def markerPath (repoRoot dir : String) : String :=
  goJoin [repoRoot, dir, kustomizationFileName]

/-- The upward walk of findKustomizationRoot: starting from a directory,
probe for the marker file, stop successfully at the ".." boundary, abort on
a stat error that is not not-found, otherwise move to the parent via
Clean(Join(dir, "..")).  Fuel bounds the number of iterations; none means
the fuel ran out before the loop finished. -/
def findKustomizationRootLoop (stat : String → StatResult) (repoRoot : String) :
    Nat → String → Option (Except String String)
  | 0, _ => none
  | fuel + 1, dir =>
    if dir = ".." then some (.ok "")
    else
      match stat (markerPath repoRoot dir) with
      | .found => some (.ok dir)
      | .ioError msg =>
          some (.error ("error checking for file in " ++ dir ++ ": " ++ msg))
      | .notFound =>
          findKustomizationRootLoop stat repoRoot fuel (goClean (goJoin [dir, ".."]))

/-- Default fuel: one iteration per raw path chunk plus the root and the
boundary step, enough for every canonical repository-relative path. -/
def fkrFuel (relativePath : String) : Nat := (rawSegs relativePath.data).length + 2

def findKustomizationRoot (stat : String → StatResult) (repoRoot relativePath : String) :
    Option (Except String String) :=
  findKustomizationRootLoop stat repoRoot (fkrFuel relativePath) (goDir relativePath)

/-- The walk terminates when some fuel makes the loop finish. -/
def fkrTerminates (stat : String → StatResult) (repoRoot relativePath : String) : Prop :=
  ∃ fuel, (findKustomizationRootLoop stat repoRoot fuel (goDir relativePath)).isSome = true

/-- findKustomizationRoots: resolve each path, drop empty results, keep a
set of unique roots in insertion order (the Go version keys a map by the
root; its content is deterministic even though Go map iteration order is
not, so the embedding keeps insertion order). -/
def findKustomizationRootsLoop (stat : String → StatResult) (root : String)
    (acc : List String) : List String → Option (Except String (List String))
  | [] => some (.ok acc)
  | p :: rest =>
    match findKustomizationRoot stat root p with
    | none => none
    | some (.error e) => some (.error e)
    | some (.ok r) =>
      let acc' := if r = "" then acc else if r ∈ acc then acc else acc ++ [r]
      findKustomizationRootsLoop stat root acc' rest

def findKustomizationRoots (stat : String → StatResult) (root : String)
    (paths : List String) : Option (Except String (List String)) :=
  findKustomizationRootsLoop stat root [] paths

/-! ### Change classifier (get-kustomize-build-base main.go) -/

def changeStatusModification : String := "M"
def changeStatusChangingType : String := "T"
def changeStatusAddition : String := "A"
def changeStatusDeletion : String := "D"
def changeStatusCopy : String := "C"
def changeStatusRenaming : String := "R"

/-- findKustomizationRootForNew: when the changed path is itself named
kustomization.yaml, search from its directory (so the walk starts at the
parent of that directory), otherwise search from the path itself. -/
def findKustomizationRootForNew (stat : String → StatResult)
    (buildRoot relativePath : String) : Option (Except String String) :=
  let searchRoot :=
    if goBase relativePath = kustomizationFileName then goDir relativePath
    else relativePath
  findKustomizationRoot stat buildRoot searchRoot

/-- getBaseForChange: dispatch on the git diff status letter.  A rename is
a deletion of the source plus an addition of the destination, both results
joined by a newline; unknown statuses yield the empty result.  Out-of-range
file accesses (a Go panic) are modelled as none. -/
def getBaseForChange (stat : String → StatResult) (buildRoot status : String)
    (files : List String) : Option (Except String String) :=
  if status = changeStatusModification ∨ status = changeStatusChangingType then
    match files with
    | f :: _ => findKustomizationRoot stat buildRoot f
    | [] => none
  else if status = changeStatusAddition ∨ status = changeStatusDeletion then
    match files with
    | f :: _ => findKustomizationRootForNew stat buildRoot f
    | [] => none
  else if status = changeStatusCopy then
    match files with
    | _ :: dst :: _ => findKustomizationRootForNew stat buildRoot dst
    | _ => none
  else if status = changeStatusRenaming then
    match files with
    | src :: dst :: _ =>
      match findKustomizationRootForNew stat buildRoot src with
      | none => none
      | some (.error e) => some (.error e)
      | some (.ok deleted) =>
        match findKustomizationRootForNew stat buildRoot dst with
        | none => none
        | some (.error e) => some (.error e)
        | some (.ok added) => some (.ok (deleted ++ "\n" ++ added))
    | _ => none
  else some (.ok "")

/-! ### Component filter (kustomize-build-dirs main.go) -/

/-- The parsed form of a kustomization file. -/
structure Kustomization where
  apiVersion : String
  kind : String
deriving DecidableEq

/-- Result of opening and reading a file. -/
inductive FileRes where
  | openError (msg : String)
  | readError (msg : String)
  | contents (data : String)
deriving DecidableEq

/-- Result of a call that can return a value, return an error, or terminate
the process (log.Fatalf). -/
inductive ProcResult (α : Type) where
  | ok (a : α)
  | error (msg : String)
  | fatal (msg : String)
deriving DecidableEq

/-- checkIfIsComponent: an open failure is returned as an error naming the
file; a read failure or an unmarshal failure calls log.Fatalf, which kills
the process instead of returning. -/
def checkIfIsComponent (openF : String → FileRes)
    (parseYaml : String → Except String Kustomization) (fp : String) :
    ProcResult Bool :=
  match openF fp with
  | .openError msg => .error ("failed opening kustomization file: " ++ fp ++ ": " ++ msg)
  | .readError msg => .fatal ("Error reading file: " ++ msg)
  | .contents data =>
    match parseYaml data with
    | .error msg => .fatal ("Error unmarshaling YAML: " ++ msg)
    | .ok kustomization => .ok (kustomization.kind == "Component")

/-- removeComponentKustomizations: keep the roots whose marker file is not
of kind Component, propagating the first failure. -/
def removeComponentKustomizations (openF : String → FileRes)
    (parseYaml : String → Except String Kustomization) (kustomizationRoot : String) :
    List String → ProcResult (List String)
  | [] => .ok []
  | path :: rest =>
    match checkIfIsComponent openF parseYaml
        (goJoin [kustomizationRoot, path, kustomizationFileName]) with
    | .error m => .error m
    | .fatal m => .fatal m
    | .ok isComponent =>
      match removeComponentKustomizations openF parseYaml kustomizationRoot rest with
      | .error m => .error m
      | .fatal m => .fatal m
      | .ok pathsNoComponent =>
        .ok (if isComponent then pathsNoComponent else path :: pathsNoComponent)

/-! ### Secret discovery and redaction (findSecrets, truncateSecrets) -/

/-- Captured outcome of running an external command. -/
structure CmdOut where
  stdout : String
  stderr : String
  exitErr : Option String
deriving DecidableEq

def encryptedPathspec : String := ":(attr:filter=strongbox diff=strongbox)"

def nulChar : Char := Char.ofNat 0

/-- The argument list findSecrets hands to git: the never-matching pathspec
not/a/path is always present, before one attribute pathspec per directory. -/
def findSecretsArgs (rootDir : String) (dirs : List String) : List String :=
  ["-C", rootDir, "ls-files", "-z", "--", "not/a/path"] ++
    dirs.map (fun dir => encryptedPathspec ++ dir)

/-- findSecrets: run git ls-files -z over the pathspecs, fail with the
captured stderr on a non-zero exit, otherwise split the NUL-terminated
output and drop the final empty field. -/
def findSecrets (git : List String → CmdOut) (rootDir : String)
    (dirs : List String) : Except String (List String) :=
  match (git (findSecretsArgs rootDir dirs)).exitErr with
  | some e =>
    .error ("Error listing secrets via 'git "
      ++ String.intercalate " " (findSecretsArgs rootDir dirs) ++ "': "
      ++ e ++ "\nstderr: " ++ (git (findSecretsArgs rootDir dirs)).stderr)
  | none =>
    .ok ((((git (findSecretsArgs rootDir dirs)).stdout.data.splitOn
      nulChar).dropLast).map fun l => (⟨l⟩ : String))

/-- A file of the repository as git sees it: its path and whether its
attributes mark it as strongbox-encrypted. -/
structure RepoFile where
  path : String
  strongbox : Bool
deriving DecidableEq

def isPref : List Char → List Char → Bool
  | [], _ => true
  | _ :: _, [] => false
  | a :: as, b :: bs => a = b && isPref as bs

/-- A directory pathspec matches a file exactly or as a directory, and
the empty pathspec matches everything. -/
def dirMatches (d p : String) : Bool :=
  d = "" || p = d || isPref (d.data ++ ['/']) p.data

/-- Modelled from the spec: git itself is an external executable, specified
only at its boundary.  A pathspec carrying the strongbox attribute prefix
matches only strongbox-attributed files under its directory; a bare
pathspec matches by directory alone. -/
def pathspecMatches (f : RepoFile) (spec : String) : Bool :=
  if isPref encryptedPathspec.data spec.data then
    f.strongbox && dirMatches ⟨spec.data.drop encryptedPathspec.data.length⟩ f.path
  else dirMatches spec f.path

/-- Modelled from the spec: the git ls-files contract.  The pathspecs are
the arguments after the double dash; with a non-empty pathspec list the
output lists the files matching at least one pathspec, NUL-terminated,
while an empty pathspec list matches every file (the documented ambiguity
the never-matching pathspec compensates for). -/
def gitPathspecsOf (args : List String) : List String :=
  (args.dropWhile (· ≠ "--")).drop 1

def gitMatchedFiles (repo : List RepoFile) (args : List String) : List RepoFile :=
  if (gitPathspecsOf args).isEmpty then repo
  else repo.filter fun f => (gitPathspecsOf args).any (pathspecMatches f)

def gitLsFilesModel (repo : List RepoFile) (args : List String) : CmdOut :=
  { stdout := ⟨((gitMatchedFiles repo args).map fun f => f.path.data ++ [nulChar]).flatten⟩
    stderr := ""
    exitErr := none }

/-! ### Concurrent build executor and output writer -/

/-- kustomizeBuild: run the external build command, failing with a message
that carries the captured stderr on a non-zero exit, otherwise returning
the captured stdout and stderr. -/
def kustomizeBuild (run : String → CmdOut) (path : String) :
    Except String (String × String) :=
  match (run path).exitErr with
  | some e =>
    .error ("Error running 'kustomize build " ++ path ++ "': " ++ e
      ++ "\nstderr: " ++ (run path).stderr)
  | none => .ok ((run path).stdout, (run path).stderr)

/-- buildManifests: one build per root, results keyed by root.  The Go
version fans the builds out concurrently and errgroup.Wait surfaces one
failing task's error; the embedding determinises the schedule to list
order, which realises one admissible schedule, and the claims proved about
it only state facts that hold for every schedule. -/
def buildManifests (run : String → CmdOut) (kustomizationRoots : List String)
    (rootDir : String) : Except String (List (String × String)) :=
  match kustomizationRoots with
  | [] => .ok []
  | root :: rest =>
    match kustomizeBuild run (goJoin [rootDir, root]) with
    | .error e => .error e
    | .ok (manifest, _stderrWarnings) =>
      match buildManifests run rest rootDir with
      | .error e => .error e
      | .ok manifestMap => .ok ((root, manifest) :: manifestMap)

def manifestFileName : String := "manifests.yaml"

/-- The external effects the pipeline needs, injected as data. -/
structure Env where
  getwd : Except String String
  kustomizeOnPath : Bool
  stat : String → StatResult
  openFile : String → FileRes
  parseYaml : String → Except String Kustomization
  runGit : List String → CmdOut
  runKustomize : String → CmdOut
  truncateFile : String → Option String
  mkdirAll : String → Option String
  writeFile : String → String → Option String

def checkKustomizeInstalled (env : Env) : Except String Unit :=
  if env.kustomizeOnPath then .ok ()
  else .error "requires `kustomize` to be installed https://kubectl.docs.kubernetes.io/installation/kustomize/"

/-- truncateSecrets: list the strongbox files under the selected roots and
truncate each in place, failing on the first file that cannot be opened
for truncation. -/
def truncateSecretsLoop (env : Env) (rootDir : String) :
    List String → Except String Unit
  | [] => .ok ()
  | secret :: rest =>
    match env.truncateFile (goJoin [rootDir, secret]) with
    | some e => .error ("error truncating secrets file '" ++ secret ++ "': " ++ e)
    | none => truncateSecretsLoop env rootDir rest

def truncateSecrets (env : Env) (rootDir : String) (dirs : List String) :
    Except String Unit :=
  match findSecrets env.runGit rootDir dirs with
  | .error e => .error e
  | .ok secrets => truncateSecretsLoop env rootDir secrets

/-- writeManifest: create the target directory under the output root and
write the fixed manifest file name inside it. -/
def writeManifest (env : Env) (manifest outDir manifestPath : String) :
    Option String :=
  let targetDir := goJoin [outDir, manifestPath]
  match env.mkdirAll targetDir with
  | some e => some ("failed creating target directory '" ++ targetDir ++ "': " ++ e)
  | none =>
    let target := goJoin [targetDir, manifestFileName]
    match env.writeFile target manifest with
    | some e => some ("error writing to '" ++ target ++ "': " ++ e)
    | none => none

def writeAllManifests (env : Env) (outDir : String) :
    List (String × String) → ProcResult Unit
  | [] => .ok ()
  | (manifestPath, manifest) :: rest =>
    match writeManifest env manifest outDir manifestPath with
    | some e => .error e
    | none => writeAllManifests env outDir rest

/-- kustomizeBuildDirs: the whole pipeline of the kustomize-build-dirs
tool; find the build roots of the changed paths, drop Component roots,
optionally truncate secrets, build everything, then write the results. -/
def kustomizeBuildDirs (env : Env) (outDir : String) (doTruncateSecrets : Bool)
    (filepaths : List String) : Option (ProcResult Unit) :=
  match env.getwd with
  | .error e => some (.error ("error reading working directory: " ++ e))
  | .ok rootDir =>
    match checkKustomizeInstalled env with
    | .error e => some (.error e)
    | .ok _ =>
      match findKustomizationRoots env.stat rootDir filepaths with
      | none => none
      | some (.error e) => some (.error e)
      | some (.ok kustomizationRoots) =>
        match removeComponentKustomizations env.openFile env.parseYaml rootDir
            kustomizationRoots with
        | .error e => some (.error e)
        | .fatal m => some (.fatal m)
        | .ok roots =>
          match (if doTruncateSecrets then truncateSecrets env rootDir roots
                 else .ok ()) with
          | .error e => some (.error e)
          | .ok _ =>
            match buildManifests env.runKustomize roots rootDir with
            | .error e => some (.error e)
            | .ok manifestMap => some (writeAllManifests env outDir manifestMap)

/-! ### Root grouping (deepestCommonDirs) -/

def charListLe : List Char → List Char → Bool
  | [], _ => true
  | _ :: _, [] => false
  | a :: as, b :: bs =>
    if a.val < b.val then true
    else if b.val < a.val then false
    else charListLe as bs

def segsLe : List (List Char) → List (List Char) → Bool
  | [], _ => true
  | _ :: _, [] => false
  | a :: as, b :: bs => if a = b then segsLe as bs else charListLe a b

def strLe (a b : String) : Bool := charListLe a.data b.data

def insertSorted (le : α → α → Bool) (x : α) : List α → List α
  | [] => [x]
  | y :: ys => if le x y then x :: y :: ys else y :: insertSorted le x ys

def sortBy (le : α → α → Bool) (l : List α) : List α :=
  l.foldr (insertSorted le) []

/-- The directory of a path, as a segment list; a root-level file has the
empty segment list. -/
def dirSegsOfPath (p : String) : List (List Char) := (rawSegs p.data).dropLast

/-- The longest shared leading run of two segment lists. -/
def sharedAncestor : List (List Char) → List (List Char) → List (List Char)
  | a :: as, b :: bs => if a = b then a :: sharedAncestor as bs else []
  | _, _ => []

/-- Collapse a sorted run of directories: a neighbour sharing at least
max(minDepth, 1) leading segments with the current representative merges
into their shared ancestor, anything else starts a new group. -/
def groupRepsGo (minDepth : Nat) (rep : List (List Char)) :
    List (List (List Char)) → List (List (List Char))
  | [] => [rep]
  | d :: ds =>
    let shared := sharedAncestor rep d
    if max minDepth 1 ≤ shared.length then groupRepsGo minDepth shared ds
    else rep :: groupRepsGo minDepth d ds

/-- Render a representative with a trailing separator; the repository root
is the empty string. -/
def renderDirSlash (d : List (List Char)) : String :=
  if d = [] then "" else ⟨List.intercalate ['/'] d ++ ['/']⟩

def dedupAdjacent : List String → List String
  | [] => []
  | [a] => [a]
  | a :: b :: rest =>
    if a = b then dedupAdjacent (b :: rest) else a :: dedupAdjacent (b :: rest)

/-- Modelled from the spec: the source file defining deepestCommonDirs is
not under src, only its test suite TestDeepestCommonDirs is.  Following
section 4.3 of the specification and the literal test cases the
specification designates as authoritative: take each path's directory,
drop directories shallower than minDepth, sort, merge sorted neighbours
that share an ancestor no shallower than minDepth (and never merge
distinct top-level directories into the root), and emit the deduplicated
sorted representatives with a trailing separator. -/
def deepestCommonDirs (paths : List String) (minDepth : Nat) : List String :=
  let dirs := (paths.map dirSegsOfPath).filter fun d => minDepth ≤ d.length
  let sorted := sortBy segsLe dirs
  let reps :=
    match sorted with
    | [] => []
    | d :: ds => groupRepsGo minDepth d ds
  dedupAdjacent (sortBy strLe (reps.map renderDirSlash))

/-! The nine cases of TestDeepestCommonDirs, validating the model against
the test suite in the source. -/

example : deepestCommonDirs [] 0 = [] := by decide
example : deepestCommonDirs ["aaa/bbb/ccc/file.yaml"] 0 = ["aaa/bbb/ccc/"] := by decide
example :
    deepestCommonDirs
      ["file.yaml", "aaa/bbb/ccc/file.yaml", "aaa/bbb/ccc/bbb/file.yaml",
       "aaa/bbb/ccc/ddd/file1.yaml", "aaa/bbb/ccc/ddd/file2.yaml",
       "aaa/bbb/ccc/ddd/eee/file.yaml", "bbb/ccc/file.yaml",
       "bbb/ccc/ddd/file.yaml", "ccc/ddd/eee/fff/ggg/hhh/file.yaml"] 1 =
      ["aaa/bbb/ccc/", "bbb/ccc/", "ccc/ddd/eee/fff/ggg/hhh/"] := by decide
example :
    deepestCommonDirs ["aaa/file.yaml", "bbb/file.yaml", "ccc/file.yaml"] 1 =
      ["aaa/", "bbb/", "ccc/"] := by decide
example :
    deepestCommonDirs ["aaa/bbb/ccc/file.yaml", "aaa/bbb/file.yaml", "bbb/ccc/file.yaml"] 1 =
      ["aaa/bbb/", "bbb/ccc/"] := by decide
example : deepestCommonDirs ["file.yaml"] 0 = [""] := by decide
example :
    deepestCommonDirs ["file.yaml", "aaa/bbb/file.yaml", "ccc/file.yaml"] 0 =
      ["", "aaa/bbb/", "ccc/"] := by decide
example :
    deepestCommonDirs ["file.yaml", "aaa/bbb/file.yaml", "ccc/file.yaml"] 1 =
      ["aaa/bbb/", "ccc/"] := by decide
example :
    deepestCommonDirs
      ["file.yaml", "aaa/file.yaml", "aaa/bbb/file.yaml", "bbb/ccc/file.yaml"] 2 =
      ["aaa/bbb/", "bbb/ccc/"] := by decide
example :
    deepestCommonDirs
      ["file.yaml", "aaa/bbb/file.yaml", "aaa/bbb/ccc/file.yaml",
       "aaa/bbb/ccc/ddd/file.yaml"] 3 =
      ["aaa/bbb/ccc/"] := by decide

instance {ε α : Type} [DecidableEq ε] [DecidableEq α] : DecidableEq (Except ε α)
  | .error e, .error e' =>
    if h : e = e' then .isTrue (by rw [h]) else .isFalse (by simp [h])
  | .ok a, .ok b =>
    if h : a = b then .isTrue (by rw [h]) else .isFalse (by simp [h])
  | .error _, .ok _ => .isFalse (by simp)
  | .ok _, .error _ => .isFalse (by simp)

/-! ### Concrete filesystems used in examples and witnesses -/

/-- A repository whose only marker file sits at a/kustomization.yaml. -/
def statMarkerAtA : String → StatResult := fun p =>
  if p = "repo/a/kustomization.yaml" then .found else .notFound

/-- A repository whose only marker file sits at the repository root. -/
def statMarkerAtRoot : String → StatResult := fun p =>
  if p = "repo/kustomization.yaml" then .found else .notFound

/-- A repository with no marker file at all. -/
def statNoMarker : String → StatResult := fun _ => .notFound

example : findKustomizationRoot statMarkerAtA "repo" "a/b/x.yaml" = some (.ok "a") := by
  decide
example : findKustomizationRoot statMarkerAtA "repo" "b/x.yaml" = some (.ok "") := by
  decide
example : findKustomizationRoot statMarkerAtRoot "repo" "b/x.yaml" = some (.ok ".") := by
  decide
example :
    findKustomizationRootForNew statMarkerAtA "repo" "a/b/kustomization.yaml" =
      some (.ok "a") := by decide
example :
    getBaseForChange statMarkerAtA "repo" "R" ["a/x.yaml", "a/y.yaml"] =
      some (.ok "a\na") := by decide

/-! ### Canonical repository-relative paths

A changed path coming out of a git diff is a nonempty sequence of
separator-free segments none of which is empty, "." or "..".  The lemmas
below compute the embedded filepath functions on such canonical paths. -/

/-- A well-formed path segment, on the character level. -/
def wfC (s : List Char) : Prop :=
  s ≠ [] ∧ s ≠ ['.'] ∧ s ≠ ['.', '.'] ∧ '/' ∉ s

instance (s : List Char) : Decidable (wfC s) := by unfold wfC; infer_instance

def wfSeg (s : String) : Prop := wfC s.data

instance (s : String) : Decidable (wfSeg s) := by unfold wfSeg; infer_instance

def wfSegs (l : List String) : Prop := ∀ s ∈ l, wfSeg s

instance (l : List String) : Decidable (wfSegs l) := by unfold wfSegs; infer_instance

/-- The directory at a canonical segment list; the repository root is ".". -/
def dirOfSegs (l : List String) : String :=
  if l = [] then "." else ⟨List.intercalate ['/'] (l.map String.data)⟩

/-- A canonical file path: the file name below the given directory. -/
def pathOfSegs (l : List String) (f : String) : String :=
  ⟨List.intercalate ['/'] ((l ++ [f]).map String.data)⟩

lemma wfSegs_map {l : List String} (hl : wfSegs l) :
    ∀ x ∈ l.map String.data, wfC x := by
  intro x hx
  rw [List.mem_map] at hx
  obtain ⟨s, hs, rfl⟩ := hx
  exact hl s hs

lemma wfSegs_dropLast {l : List String} (hl : wfSegs l) : wfSegs l.dropLast :=
  fun s hs => hl s (List.dropLast_subset l hs)

lemma wfSegs_take {l : List String} (hl : wfSegs l) (j : Nat) : wfSegs (l.take j) :=
  fun s hs => hl s (List.take_subset j l hs)

/-! Small facts about List.intercalate with a single separator. -/

lemma intercalate_single (s a : List Char) : List.intercalate s [a] = a := by
  simp [List.intercalate]

lemma intercalate_cons₂ (s a b : List Char) (t : List (List Char)) :
    List.intercalate s (a :: b :: t) = a ++ s ++ List.intercalate s (b :: t) := by
  simp [List.intercalate, List.intersperse_cons_cons, List.append_assoc]

lemma intercalate_concat (s y : List Char) :
    ∀ l : List (List Char), l ≠ [] →
      List.intercalate s (l ++ [y]) = List.intercalate s l ++ s ++ y
  | [], h => absurd rfl h
  | [a], _ => by
    rw [List.singleton_append, intercalate_cons₂, intercalate_single, intercalate_single]
  | a :: b :: t, _ => by
    have ih := intercalate_concat s y (b :: t) (by simp)
    rw [List.cons_append] at ih
    rw [List.cons_append, List.cons_append, intercalate_cons₂, ih,
      intercalate_cons₂]
    simp [List.append_assoc]

lemma intercalate_head (s : List Char) (c : Char) (a : List Char)
    (t : List (List Char)) :
    (List.intercalate s ((c :: a) :: t)).head? = some c := by
  cases t with
  | nil => rw [intercalate_single]; rfl
  | cons b u => rw [intercalate_cons₂]; rfl

lemma intercalate_ne_nil (s : List Char) (c : Char) (a : List Char)
    (t : List (List Char)) :
    List.intercalate s ((c :: a) :: t) ≠ [] := by
  intro h
  have hh := intercalate_head s c a t
  rw [h] at hh
  exact Option.noConfusion hh

/-! Cleaning fixes canonical paths. -/

lemma cleanStep_wf (rooted : Bool) (acc : List (List Char)) (s : List Char)
    (h : wfC s) : cleanStep rooted acc s = acc ++ [s] := by
  obtain ⟨h1, h2, h3, -⟩ := h
  simp [cleanStep, h1, h2, h3]

lemma foldl_cleanStep_wf (rooted : Bool) :
    ∀ l : List (List Char), (∀ s ∈ l, wfC s) → ∀ acc,
      List.foldl (cleanStep rooted) acc l = acc ++ l
  | [], _, acc => by simp
  | s :: t, h, acc => by
    rw [List.foldl_cons, cleanStep_wf rooted acc s (h s (by simp)),
      foldl_cleanStep_wf rooted t (fun x hx => h x (by simp [hx])) (acc ++ [s])]
    simp

lemma cleanSegs_wf (rooted : Bool) (l : List (List Char)) (h : ∀ s ∈ l, wfC s) :
    cleanSegs rooted l = l := by
  unfold cleanSegs
  rw [foldl_cleanStep_wf rooted l h []]
  simp

lemma head_ne_sep {c : Char} {a : List Char} (h : wfC (c :: a)) : c ≠ '/' := by
  intro hc
  exact h.2.2.2 (by rw [hc]; simp)

lemma isRootedC_of_head {X : List Char} {c : Char} (hh : X.head? = some c)
    (hc : c ≠ '/') : isRootedC X = false := by
  unfold isRootedC
  rw [hh]
  simp [hc]

lemma cleanC_wf_core (c : Char) (a : List Char) (t : List (List Char))
    (h : ∀ s ∈ (c :: a) :: t, wfC s) :
    cleanC (List.intercalate ['/'] ((c :: a) :: t)) =
      List.intercalate ['/'] ((c :: a) :: t) := by
  have hnn := intercalate_ne_nil ['/'] c a t
  have hc : c ≠ '/' := head_ne_sep (h (c :: a) (by simp))
  have hroot : isRootedC (List.intercalate ['/'] ((c :: a) :: t)) = false :=
    isRootedC_of_head (intercalate_head _ c a t) hc
  have hsplit : rawSegs (List.intercalate ['/'] ((c :: a) :: t)) = (c :: a) :: t := by
    unfold rawSegs
    exact List.splitOn_intercalate _ '/' (fun x hx => (h x hx).2.2.2) (by simp)
  unfold cleanC
  rw [if_neg hnn, hroot, hsplit, cleanSegs_wf false _ h]
  unfold renderP
  simp

lemma cleanC_trailing (c : Char) (a : List Char) (t : List (List Char))
    (h : ∀ s ∈ (c :: a) :: t, wfC s) :
    cleanC (List.intercalate ['/'] ((c :: a) :: t) ++ ['/']) =
      List.intercalate ['/'] ((c :: a) :: t) := by
  have heq : List.intercalate ['/'] ((c :: a) :: t) ++ ['/'] =
      List.intercalate ['/'] (((c :: a) :: t) ++ [[]]) := by
    rw [intercalate_concat ['/'] [] ((c :: a) :: t) (by simp)]
    simp
  have hc : c ≠ '/' := head_ne_sep (h (c :: a) (by simp))
  have hnn : List.intercalate ['/'] (((c :: a) :: t) ++ [[]]) ≠ [] := by
    rw [List.cons_append]
    exact intercalate_ne_nil ['/'] c a (t ++ [[]])
  have hroot : isRootedC (List.intercalate ['/'] (((c :: a) :: t) ++ [[]])) = false := by
    rw [List.cons_append]
    exact isRootedC_of_head (intercalate_head _ c a (t ++ [[]])) hc
  have hsplit : rawSegs (List.intercalate ['/'] (((c :: a) :: t) ++ [[]])) =
      ((c :: a) :: t) ++ [[]] := by
    unfold rawSegs
    refine List.splitOn_intercalate _ '/' ?_ (by simp)
    intro x hx
    rcases List.mem_append.mp hx with hx | hx
    · exact (h x hx).2.2.2
    · simp at hx
      simp [hx]
  have hclean : cleanSegs false (((c :: a) :: t) ++ [[]]) = (c :: a) :: t := by
    unfold cleanSegs
    rw [List.foldl_append, foldl_cleanStep_wf false _ h []]
    simp [cleanStep]
  rw [heq]
  unfold cleanC
  rw [if_neg hnn, hroot, hsplit, hclean]
  unfold renderP
  simp

lemma cleanSegs_wf_dotdot (L : List (List Char)) (hL : ∀ s ∈ L, wfC s)
    (hne : L ≠ []) : cleanSegs false (L ++ [['.', '.']]) = L.dropLast := by
  obtain ⟨L', last, hL'⟩ := (List.eq_nil_or_concat L).resolve_left hne
  rw [List.concat_eq_append] at hL'
  subst hL'
  have hlast : last ≠ ['.', '.'] := (hL last (by simp)).2.2.1
  unfold cleanSegs
  rw [List.foldl_append, foldl_cleanStep_wf false _ hL []]
  simp only [List.nil_append, List.foldl_cons, List.foldl_nil]
  simp [cleanStep, List.getLast?_concat, hlast, List.dropLast_concat]

/-! Computation of Dir, the parent step and Base on canonical paths. -/

lemma dirOfSegs_data {l : List String} (hne : l ≠ []) :
    (dirOfSegs l).data = List.intercalate ['/'] (l.map String.data) := by
  unfold dirOfSegs
  rw [if_neg hne]

lemma dirOfSegs_concat (m : List String) (s : String) :
    dirOfSegs (m ++ [s]) = pathOfSegs m s := by
  unfold dirOfSegs pathOfSegs
  rw [if_neg (by simp)]

lemma map_data_shape {l : List String} (hl : wfSegs l) (hne : l ≠ []) :
    ∃ c a t, l.map String.data = (c :: a) :: t ∧ c ≠ '/' := by
  cases l with
  | nil => exact absurd rfl hne
  | cons s₀ l' =>
    cases hs : s₀.data with
    | nil => exact absurd hs (hl s₀ (by simp)).1
    | cons c a =>
      refine ⟨c, a, l'.map String.data, by simp [hs], ?_⟩
      have hwf : wfC (c :: a) := hs ▸ hl s₀ (by simp)
      exact head_ne_sep hwf

lemma goDir_pathOfSegs (l : List String) (f : String) (hl : wfSegs l)
    (hf : wfSeg f) : goDir (pathOfSegs l f) = dirOfSegs l := by
  have hsplit : rawSegs (pathOfSegs l f).data = (l ++ [f]).map String.data := by
    unfold rawSegs pathOfSegs
    refine List.splitOn_intercalate _ '/' ?_ (by simp)
    intro x hx
    rw [List.mem_map] at hx
    obtain ⟨s, hs, rfl⟩ := hx
    rcases List.mem_append.mp hs with hs | hs
    · exact (hl s hs).2.2.2
    · simp at hs
      subst hs
      exact hf.2.2.2
  unfold goDir dirC
  rw [hsplit]
  cases l with
  | nil =>
    simp only [List.nil_append, List.map_cons, List.map_nil, List.length_cons,
      List.length_nil, Nat.le_refl, if_pos]
    unfold dirOfSegs
    simp
  | cons s₀ l' =>
    have hlen : ¬((s₀ :: l' ++ [f]).map String.data).length ≤ 1 := by
      simp
    rw [if_neg hlen]
    have hdrop : ((s₀ :: l' ++ [f]).map String.data).dropLast =
        (s₀ :: l').map String.data := by
      rw [List.map_append]
      simp only [List.map_cons, List.map_nil, List.cons_append]
      rw [← List.cons_append, List.dropLast_concat]
    rw [hdrop]
    obtain ⟨c, a, t, hshape, -⟩ := map_data_shape hl (l := s₀ :: l') (by simp)
    rw [hshape, cleanC_trailing c a t (hshape ▸ wfSegs_map hl)]
    have : (dirOfSegs (s₀ :: l')).data =
        List.intercalate ['/'] ((c :: a) :: t) := by
      rw [dirOfSegs_data (by simp), hshape]
    exact congrArg String.mk this.symm ▸ rfl

lemma goClean_dirOfSegs {l : List String} (hl : wfSegs l) :
    goClean (dirOfSegs l) = dirOfSegs l := by
  cases l with
  | nil => decide
  | cons s₀ l' =>
    obtain ⟨c, a, t, hshape, -⟩ := map_data_shape hl (l := s₀ :: l') (by simp)
    unfold goClean
    rw [dirOfSegs_data (by simp), hshape,
      cleanC_wf_core c a t (hshape ▸ wfSegs_map hl)]
    apply String.ext
    rw [dirOfSegs_data (by simp), hshape]

lemma step_dirOfSegs (l : List String) (hl : wfSegs l) (hne : l ≠ []) :
    goClean (goJoin [dirOfSegs l, ".."]) = dirOfSegs l.dropLast := by
  obtain ⟨c, a, t, hshape, -⟩ := map_data_shape hl hne
  have hwfL : ∀ s ∈ (c :: a) :: t, wfC s := hshape ▸ wfSegs_map hl
  have hdata : (dirOfSegs l).data = List.intercalate ['/'] ((c :: a) :: t) := by
    rw [dirOfSegs_data hne, hshape]
  -- the Join of the directory and ".."
  have hjoin : (goJoin [dirOfSegs l, ".."]).data =
      cleanC (List.intercalate ['/'] (((c :: a) :: t) ++ [['.', '.']])) := by
    unfold goJoin joinC
    rw [List.map_cons, List.map_cons, List.map_nil, hdata]
    have hne₂ : List.intercalate ['/'] ((c :: a) :: t) ≠ [] :=
      intercalate_ne_nil ['/'] c a t
    obtain ⟨d, Y, hY⟩ : ∃ d Y, List.intercalate ['/'] ((c :: a) :: t) = d :: Y := by
      cases hI : List.intercalate ['/'] ((c :: a) :: t) with
      | nil => exact absurd hI hne₂
      | cons d Y => exact ⟨d, Y, rfl⟩
    rw [hY]
    simp only [List.dropWhile_cons, List.isEmpty_cons, Bool.false_eq_true,
      if_false]
    rw [← hY, intercalate_cons₂, intercalate_single,
      intercalate_concat ['/'] ['.', '.'] ((c :: a) :: t) (by simp)]
  -- cleaning resolves the ".." against the last element
  have hinner : cleanC (List.intercalate ['/'] (((c :: a) :: t) ++ [['.', '.']])) =
      renderP false (((c :: a) :: t).dropLast) := by
    have hc : c ≠ '/' := head_ne_sep (hwfL (c :: a) (by simp))
    have hnn : List.intercalate ['/'] (((c :: a) :: t) ++ [['.', '.']]) ≠ [] := by
      rw [List.cons_append]
      exact intercalate_ne_nil ['/'] c a (t ++ [['.', '.']])
    have hroot : isRootedC (List.intercalate ['/'] (((c :: a) :: t) ++ [['.', '.']]))
        = false := by
      rw [List.cons_append]
      exact isRootedC_of_head (intercalate_head _ c a (t ++ [['.', '.']])) hc
    have hsplit : rawSegs (List.intercalate ['/'] (((c :: a) :: t) ++ [['.', '.']]))
        = ((c :: a) :: t) ++ [['.', '.']] := by
      unfold rawSegs
      refine List.splitOn_intercalate _ '/' ?_ (by simp)
      intro x hx
      rcases List.mem_append.mp hx with hx | hx
      · exact (hwfL x hx).2.2.2
      · simp at hx
        simp [hx]
    unfold cleanC
    rw [if_neg hnn, hroot, hsplit,
      cleanSegs_wf_dotdot ((c :: a) :: t) hwfL (by simp)]
  -- the result is the parent directory, and cleaning it again fixes it
  have hdrop : ((c :: a) :: t).dropLast = (l.dropLast).map String.data := by
    rw [List.map_dropLast, hshape]
  rw [show goClean (goJoin [dirOfSegs l, ".."]) =
      (⟨cleanC (goJoin [dirOfSegs l, ".."]).data⟩ : String) from rfl, hjoin, hinner,
    hdrop]
  by_cases hld : l.dropLast = []
  · rw [hld]
    unfold renderP
    simp only [List.map_nil, Bool.false_eq_true, if_false, if_pos rfl]
    decide
  · obtain ⟨c', a', t', hshape', -⟩ := map_data_shape (wfSegs_dropLast hl) hld
    rw [hshape']
    unfold renderP
    rw [if_neg (by simp), if_neg (by simp)]
    have hfix := cleanC_wf_core c' a' t' (hshape' ▸ wfSegs_map (wfSegs_dropLast hl))
    rw [hfix]
    apply String.ext
    rw [dirOfSegs_data hld, hshape']

lemma strip_no_trailing_sep (X : List Char) (c : Char) (hc : c ≠ '/') :
    ((X ++ [c]).reverse.dropWhile (· = '/')).reverse = X ++ [c] := by
  rw [List.reverse_append]
  simp [List.dropWhile_cons, hc]

lemma goBase_pathOfSegs (l : List String) (f : String) (hl : wfSegs l)
    (hf : wfSeg f) : goBase (pathOfSegs l f) = f := by
  obtain ⟨fs, c, hfc⟩ := (List.eq_nil_or_concat f.data).resolve_left hf.1
  rw [List.concat_eq_append] at hfc
  have hc : c ≠ '/' := by
    intro hceq
    exact hf.2.2.2 (by rw [hfc, hceq]; simp)
  have hshapeS : ∃ X, (pathOfSegs l f).data = X ++ [c] := by
    unfold pathOfSegs
    cases l with
    | nil =>
      refine ⟨fs, ?_⟩
      simp [intercalate_single, hfc]
    | cons s₀ l' =>
      refine ⟨List.intercalate ['/'] ((s₀ :: l').map String.data) ++ '/' :: fs, ?_⟩
      rw [List.map_append]
      simp only [List.map_cons, List.map_nil]
      rw [intercalate_concat ['/'] f.data (s₀.data :: List.map String.data l') (by simp),
        hfc]
      simp [List.append_assoc]
  obtain ⟨X, hX⟩ := hshapeS
  have hsplit : rawSegs (pathOfSegs l f).data = (l ++ [f]).map String.data := by
    unfold rawSegs pathOfSegs
    refine List.splitOn_intercalate _ '/' ?_ (by simp)
    intro x hx
    rw [List.mem_map] at hx
    obtain ⟨s, hs, rfl⟩ := hx
    rcases List.mem_append.mp hs with hs | hs
    · exact (hl s hs).2.2.2
    · simp at hs
      subst hs
      exact hf.2.2.2
  unfold goBase baseC
  rw [hX]
  rw [if_neg (by simp), strip_no_trailing_sep X c hc, if_neg (by simp), ← hX, hsplit]
  rw [List.map_append]
  simp only [List.map_cons, List.map_nil]
  rw [List.getLastD_concat]

lemma dirOfSegs_ne_dot {l : List String} (hl : wfSegs l) (hne : l ≠ []) :
    dirOfSegs l ≠ "." := by
  intro h
  obtain ⟨c, a, t, hshape, -⟩ := map_data_shape hl hne
  have hdata : List.intercalate ['/'] ((c :: a) :: t) = ['.'] := by
    rw [← hshape, ← dirOfSegs_data hne, h]
  have hsp := List.splitOn_intercalate ((c :: a) :: t) '/'
    (fun x hx => (wfSegs_map hl x (hshape ▸ hx)).2.2.2) (by simp)
  rw [hdata] at hsp
  have : ((['.'] : List Char).splitOn '/') = [['.']] := by decide
  rw [this] at hsp
  have := hsp.symm
  rw [List.cons_eq_cons] at this
  obtain ⟨h1, h2⟩ := this
  have hmem : (c :: a) ∈ (c :: a) :: t := by simp
  have hwf := wfSegs_map hl ((c :: a)) (hshape ▸ hmem)
  exact hwf.2.1 h1

lemma dirOfSegs_ne_dotdot {l : List String} (hl : wfSegs l) :
    dirOfSegs l ≠ ".." := by
  cases l with
  | nil => decide
  | cons s₀ l' =>
    intro h
    obtain ⟨c, a, t, hshape, -⟩ := map_data_shape hl (l := s₀ :: l') (by simp)
    have hdata : List.intercalate ['/'] ((c :: a) :: t) = ['.', '.'] := by
      rw [← hshape, ← dirOfSegs_data (l := s₀ :: l') (by simp), h]
    have hsp := List.splitOn_intercalate ((c :: a) :: t) '/'
      (fun x hx => (wfSegs_map hl x (hshape ▸ hx)).2.2.2) (by simp)
    rw [hdata] at hsp
    have hdd : ((['.', '.'] : List Char).splitOn '/') = [['.', '.']] := by decide
    rw [hdd] at hsp
    have := hsp.symm
    rw [List.cons_eq_cons] at this
    obtain ⟨h1, h2⟩ := this
    have hmem : (c :: a) ∈ (c :: a) :: t := by simp
    have hwf := wfSegs_map hl ((c :: a)) (hshape ▸ hmem)
    exact hwf.2.2.1 h1

lemma dirOfSegs_ne_empty {l : List String} (hl : wfSegs l) (hne : l ≠ []) :
    dirOfSegs l ≠ "" := by
  intro h
  obtain ⟨c, a, t, hshape, -⟩ := map_data_shape hl hne
  have hdata : List.intercalate ['/'] ((c :: a) :: t) = [] := by
    rw [← hshape, ← dirOfSegs_data hne, h]
  exact intercalate_ne_nil ['/'] c a t hdata

lemma dirOfSegs_take_ne {l : List String} (hl : wfSegs l) {j : Nat}
    (hj : j < l.length) : dirOfSegs (l.take j) ≠ dirOfSegs l := by
  have hlne : l ≠ [] := by
    intro h
    rw [h] at hj
    exact Nat.not_lt_zero j hj
  cases hlj : l.take j with
  | nil =>
    rw [show dirOfSegs [] = "." from rfl]
    exact fun h => dirOfSegs_ne_dot hl hlne h.symm
  | cons a tl =>
    intro h
    have hd := congrArg String.data h
    rw [dirOfSegs_data (l := a :: tl) (by simp), dirOfSegs_data hlne] at hd
    have hsp₁ := List.splitOn_intercalate ((a :: tl).map String.data) '/'
      (fun x hx => (wfSegs_map (hlj ▸ wfSegs_take hl j) x hx).2.2.2) (by simp)
    have hsp₂ := List.splitOn_intercalate (l.map String.data) '/'
      (fun x hx => (wfSegs_map hl x hx).2.2.2) (by simp [hlne])
    rw [hd] at hsp₁
    have hmaps : (a :: tl).map String.data = l.map String.data :=
      hsp₁.symm.trans hsp₂
    have hlen := congrArg List.length hmaps
    simp only [List.length_map] at hlen
    rw [← hlj, List.length_take] at hlen
    omega

/-! ### The specification-level walk and the master loop lemma -/

/-- What the upward walk computes on a canonical directory: probe the
directory, then its parent chain, succeeding with the empty root past
the repository root. -/
def walkSpec (stat : String → StatResult) (root : String) (l : List String) :
    Except String String :=
  match stat (markerPath root (dirOfSegs l)) with
  | .found => .ok (dirOfSegs l)
  | .ioError m => .error ("error checking for file in " ++ dirOfSegs l ++ ": " ++ m)
  | .notFound =>
    if h : l = [] then .ok ""
    else walkSpec stat root l.dropLast
termination_by l.length
decreasing_by
  rw [List.length_dropLast]
  have := List.length_pos.mpr h
  omega

lemma loop_eq_walkSpec (stat : String → StatResult) (root : String) :
    ∀ l : List String, wfSegs l → ∀ fuel, l.length + 2 ≤ fuel →
      findKustomizationRootLoop stat root fuel (dirOfSegs l) =
        some (walkSpec stat root l) := by
  intro l
  induction l using List.reverseRecOn with
  | nil =>
    intro _ fuel hf
    obtain ⟨n, rfl⟩ : ∃ n, fuel = n + 1 + 1 := ⟨fuel - 2, by omega⟩
    rw [findKustomizationRootLoop]
    rw [show dirOfSegs [] = "." from rfl]
    rw [if_neg (by decide)]
    unfold walkSpec
    rw [show dirOfSegs [] = "." from rfl]
    cases stat (markerPath root ".") with
    | found => rfl
    | ioError m => rfl
    | notFound =>
      rw [show goClean (goJoin [".", ".."]) = ".." by decide]
      rw [findKustomizationRootLoop]
      simp
  | append_singleton m s ih =>
    intro hwf fuel hf
    obtain ⟨n, rfl⟩ : ∃ n, fuel = n + 1 := ⟨fuel - 1, by omega⟩
    rw [findKustomizationRootLoop,
      if_neg (dirOfSegs_ne_dotdot hwf)]
    unfold walkSpec
    cases stat (markerPath root (dirOfSegs (m ++ [s]))) with
    | found => rfl
    | ioError msg => rfl
    | notFound =>
      simp only [dif_neg (show ¬m ++ [s] = [] by simp)]
      rw [step_dirOfSegs (m ++ [s]) hwf (by simp), List.dropLast_concat]
      have hlen : (m ++ [s]).length = m.length + 1 := by simp
      refine ih (fun x hx => hwf x (by simp [hx])) n ?_
      rw [hlen] at hf
      omega

lemma rawSegs_pathOfSegs (l : List String) (f : String) (hl : wfSegs l)
    (hf : wfSeg f) : rawSegs (pathOfSegs l f).data = (l ++ [f]).map String.data := by
  unfold rawSegs pathOfSegs
  refine List.splitOn_intercalate _ '/' ?_ (by simp)
  intro x hx
  rw [List.mem_map] at hx
  obtain ⟨s, hs, rfl⟩ := hx
  rcases List.mem_append.mp hs with hs | hs
  · exact (hl s hs).2.2.2
  · simp at hs
    subst hs
    exact hf.2.2.2

/-- On a canonical path the search equals the specification-level walk of
the ancestor chain. -/
lemma fkr_pathOfSegs (stat : String → StatResult) (root : String)
    (l : List String) (f : String) (hl : wfSegs l) (hf : wfSeg f) :
    findKustomizationRoot stat root (pathOfSegs l f) = some (walkSpec stat root l) := by
  unfold findKustomizationRoot
  rw [goDir_pathOfSegs l f hl hf]
  have hfuel : fkrFuel (pathOfSegs l f) = l.length + 3 := by
    unfold fkrFuel
    rw [rawSegs_pathOfSegs l f hl hf]
    simp
  rw [hfuel]
  exact loop_eq_walkSpec stat root l hl (l.length + 3) (by omega)

lemma walkSpec_found (stat : String → StatResult) (root : String) :
    ∀ l : List String, wfSegs l → ∀ i, i ≤ l.length →
      (∀ k, i < k → k ≤ l.length →
        stat (markerPath root (dirOfSegs (l.take k))) = .notFound) →
      stat (markerPath root (dirOfSegs (l.take i))) = .found →
      walkSpec stat root l = .ok (dirOfSegs (l.take i)) := by
  intro l
  induction l using List.reverseRecOn with
  | nil =>
    intro _ i hi _ hfd
    have h0 : i = 0 := Nat.le_zero.mp hi
    subst h0
    unfold walkSpec
    rw [show ([] : List String).take 0 = [] from rfl] at hfd ⊢
    rw [hfd]
  | append_singleton m s ih =>
    intro hwf i hi hnf hfd
    by_cases hieq : i = (m ++ [s]).length
    · subst hieq
      rw [List.take_length] at hfd ⊢
      unfold walkSpec
      rw [hfd]
    · have hil : i ≤ m.length := by
        have : (m ++ [s]).length = m.length + 1 := by simp
        omega
      have hnfl : stat (markerPath root (dirOfSegs (m ++ [s]))) = .notFound := by
        have h := hnf (m ++ [s]).length (by omega) (Nat.le_refl _)
        rwa [List.take_length] at h
      unfold walkSpec
      rw [hnfl]
      simp only [dif_neg (show ¬m ++ [s] = [] by simp)]
      rw [List.dropLast_concat,
        show (m ++ [s]).take i = m.take i from List.take_append_of_le_length hil]
      refine ih (fun x hx => hwf x (by simp [hx])) i hil ?_ ?_
      · intro k hk1 hk2
        have h := hnf k hk1 (by simp; omega)
        rwa [List.take_append_of_le_length hk2] at h
      · rwa [List.take_append_of_le_length hil] at hfd

lemma walkSpec_none (stat : String → StatResult) (root : String) :
    ∀ l : List String,
      (∀ k, k ≤ l.length → stat (markerPath root (dirOfSegs (l.take k))) = .notFound) →
      walkSpec stat root l = .ok "" := by
  intro l
  induction l using List.reverseRecOn with
  | nil =>
    intro hnf
    have h0 := hnf 0 (Nat.le_refl _)
    rw [show ([] : List String).take 0 = [] from rfl] at h0
    unfold walkSpec
    rw [h0]
    simp
  | append_singleton m s ih =>
    intro hnf
    have hl := hnf (m ++ [s]).length (Nat.le_refl _)
    rw [List.take_length] at hl
    unfold walkSpec
    rw [hl]
    simp only [dif_neg (show ¬m ++ [s] = [] by simp)]
    rw [List.dropLast_concat]
    refine ih ?_
    intro k hk
    have h := hnf k (by simp; omega)
    rwa [List.take_append_of_le_length hk] at h

lemma walkSpec_ok_shape (stat : String → StatResult) (root : String) :
    ∀ l : List String, ∀ r, walkSpec stat root l = .ok r →
      r = "" ∨ ∃ k, k ≤ l.length ∧ r = dirOfSegs (l.take k) := by
  intro l
  induction l using List.reverseRecOn with
  | nil =>
    intro r hr
    unfold walkSpec at hr
    cases hstat : stat (markerPath root (dirOfSegs [])) <;> simp only [hstat] at hr
    · right
      exact ⟨0, Nat.le_refl _, by simpa using (Except.ok.injEq _ _ ▸ hr).symm⟩
    · left
      simp at hr
      exact hr.symm
    · simp at hr
  | append_singleton m s ih =>
    intro r hr
    unfold walkSpec at hr
    cases hstat : stat (markerPath root (dirOfSegs (m ++ [s]))) <;>
      simp only [hstat] at hr
    · right
      refine ⟨(m ++ [s]).length, Nat.le_refl _, ?_⟩
      rw [List.take_length]
      simpa using hr.symm
    · rw [dif_neg (show ¬m ++ [s] = [] by simp), List.dropLast_concat] at hr
      rcases ih r hr with h | ⟨k, hk, hrk⟩
      · exact Or.inl h
      · right
        refine ⟨k, by simp; omega, ?_⟩
        rwa [List.take_append_of_le_length hk]
    · simp at hr

/-! ### Claim C1 -/

/-- Claim C1: for every canonical changed path below directory l with some
ancestor directory carrying the marker file, findKustomizationRoot returns
the nearest such ancestor (the deepest prefix take i of l whose marker is
present while every deeper prefix probes not-found); and for every path
none of whose ancestors up to the repository root carries the marker, it
returns the empty string without error. -/
theorem c1_marker_search (stat : String → StatResult) (root : String)
    (l : List String) (f : String) (hl : wfSegs l) (hf : wfSeg f) :
    (∀ i, i ≤ l.length →
      (∀ k, i < k → k ≤ l.length →
        stat (markerPath root (dirOfSegs (l.take k))) = .notFound) →
      stat (markerPath root (dirOfSegs (l.take i))) = .found →
      findKustomizationRoot stat root (pathOfSegs l f) =
        some (.ok (dirOfSegs (l.take i)))) ∧
    ((∀ k, k ≤ l.length →
        stat (markerPath root (dirOfSegs (l.take k))) = .notFound) →
      findKustomizationRoot stat root (pathOfSegs l f) = some (.ok "")) := by
  constructor
  · intro i hi hnf hfd
    rw [fkr_pathOfSegs stat root l f hl hf,
      walkSpec_found stat root l hl i hi hnf hfd]
  · intro hnf
    rw [fkr_pathOfSegs stat root l f hl hf, walkSpec_none stat root l hnf]

/-- Witness for C1 on a concrete repository: the marker at a/ is found for
a change at a/b/x.yaml, and a repository without markers yields the empty
root. -/
theorem c1_marker_search_witness :
    findKustomizationRoot statMarkerAtA "repo" "a/b/x.yaml" = some (.ok "a") ∧
    findKustomizationRoot statNoMarker "repo" "a/b/x.yaml" = some (.ok "") := by
  have h := c1_marker_search statMarkerAtA "repo" ["a", "b"] "x.yaml"
    (by decide) (by decide)
  have h2 := c1_marker_search statNoMarker "repo" ["a", "b"] "x.yaml"
    (by decide) (by decide)
  constructor
  · have hres := h.1 1 (by decide)
      (fun k hk1 hk2 => by
        have hk2' : k ≤ 2 := by simpa using hk2
        have hkeq : k = 2 := by omega
        subst hkeq
        decide) (by decide)
    rw [show pathOfSegs ["a", "b"] "x.yaml" = "a/b/x.yaml" by decide,
      show dirOfSegs (["a", "b"].take 1) = "a" by decide] at hres
    exact hres
  · have hres := h2.2 (fun k hk => by
      have hk' : k ≤ 2 := by simpa using hk
      have hcases : k = 0 ∨ k = 1 ∨ k = 2 := by omega
      rcases hcases with hc | hc | hc <;> subst hc <;> decide)
    rw [show pathOfSegs ["a", "b"] "x.yaml" = "a/b/x.yaml" by decide] at hres
    exact hres

/-! ### Claim C10: the dotdot orbit and rooted paths -/

/-- k copies of ".." joined by separators. -/
def ddStr (k : Nat) : String :=
  ⟨List.intercalate ['/'] (List.replicate k ['.', '.'])⟩

lemma foldl_cleanStep_dd (m : Nat) :
    ∀ j, 1 ≤ j →
      List.foldl (cleanStep false) (List.replicate j ['.', '.'])
          (List.replicate m ['.', '.']) =
        List.replicate (j + m) ['.', '.'] := by
  induction m with
  | zero => intro j _; simp
  | succ m ih =>
    intro j hj
    rw [List.replicate_succ, List.foldl_cons]
    have hstep : cleanStep false (List.replicate j ['.', '.']) ['.', '.'] =
        List.replicate (j + 1) ['.', '.'] := by
      obtain ⟨i, rfl⟩ : ∃ i, j = i + 1 := ⟨j - 1, by omega⟩
      unfold cleanStep
      rw [if_neg (by decide), if_pos rfl,
        List.replicate_succ' i ['.', '.'], List.getLast?_concat]
      simp [List.replicate_succ' (i + 1), List.replicate_succ' i,
        List.append_assoc]
    rw [hstep, ih (j + 1) (by omega)]
    have harith : j + 1 + m = j + (m + 1) := by omega
    rw [harith]

lemma cleanSegs_replicate_dd (m : Nat) :
    cleanSegs false (List.replicate m ['.', '.']) = List.replicate m ['.', '.'] := by
  cases m with
  | zero => rfl
  | succ m =>
    unfold cleanSegs
    rw [List.replicate_succ, List.foldl_cons]
    have hfirst : cleanStep false [] ['.', '.'] = List.replicate 1 ['.', '.'] := by
      decide
    rw [hfirst, foldl_cleanStep_dd m 1 (by omega)]
    have harith : 1 + m = m + 1 := by omega
    rw [harith, List.replicate_succ]

lemma cleanC_replicate_dd (k : Nat) (hk : 1 ≤ k) :
    cleanC (List.intercalate ['/'] (List.replicate k ['.', '.'])) =
      List.intercalate ['/'] (List.replicate k ['.', '.']) := by
  obtain ⟨i, rfl⟩ : ∃ i, k = i + 1 := ⟨k - 1, by omega⟩
  rw [List.replicate_succ]
  have hnn := intercalate_ne_nil ['/'] '.' ['.'] (List.replicate i ['.', '.'])
  have hroot : isRootedC
      (List.intercalate ['/'] (['.', '.'] :: List.replicate i ['.', '.'])) = false :=
    isRootedC_of_head (intercalate_head _ '.' ['.'] _) (by decide)
  have hsplit : rawSegs
      (List.intercalate ['/'] (['.', '.'] :: List.replicate i ['.', '.'])) =
      ['.', '.'] :: List.replicate i ['.', '.'] := by
    unfold rawSegs
    refine List.splitOn_intercalate _ '/' ?_ (by simp)
    intro x hx
    rcases List.mem_cons.mp hx with hx | hx
    · simp [hx]
    · rw [List.eq_of_mem_replicate hx]
      decide
  unfold cleanC
  rw [if_neg hnn, hroot, hsplit,
    show ['.', '.'] :: List.replicate i ['.', '.'] =
      List.replicate (i + 1) ['.', '.'] from (List.replicate_succ _ _).symm,
    cleanSegs_replicate_dd (i + 1)]
  unfold renderP
  rw [if_neg (by simp), if_neg (by simp [List.replicate_succ])]

lemma ddStr_step (k : Nat) (hk : 1 ≤ k) :
    goClean (goJoin [ddStr k, ".."]) = ddStr (k + 1) := by
  obtain ⟨i, rfl⟩ : ∃ i, k = i + 1 := ⟨k - 1, by omega⟩
  have hdata : (ddStr (i + 1)).data =
      List.intercalate ['/'] (List.replicate (i + 1) ['.', '.']) := rfl
  have hne : (ddStr (i + 1)).data ≠ [] := by
    rw [hdata, List.replicate_succ]
    exact intercalate_ne_nil ['/'] '.' ['.'] _
  have hjoin : (goJoin [ddStr (i + 1), ".."]).data =
      cleanC (List.intercalate ['/'] (List.replicate (i + 2) ['.', '.'])) := by
    unfold goJoin joinC
    simp only [List.map_cons, List.map_nil]
    obtain ⟨d, Y, hY⟩ : ∃ d Y, (ddStr (i + 1)).data = d :: Y := by
      cases hI : (ddStr (i + 1)).data with
      | nil => exact absurd hI hne
      | cons d Y => exact ⟨d, Y, rfl⟩
    rw [hY]
    simp only [List.dropWhile_cons, List.isEmpty_cons, Bool.false_eq_true, if_false]
    rw [← hY, hdata, intercalate_cons₂, intercalate_single,
      ← intercalate_concat ['/'] ['.', '.'] (List.replicate (i + 1) ['.', '.'])
        (by simp [List.replicate_succ]),
      show List.replicate (i + 1) ['.', '.'] ++ [['.', '.']] =
        List.replicate (i + 2) ['.', '.'] from (List.replicate_succ' ..).symm]
  have : (goClean (goJoin [ddStr (i + 1), ".."])).data = (ddStr (i + 2)).data := by
    unfold goClean
    rw [hjoin, cleanC_replicate_dd (i + 2) (by omega),
      cleanC_replicate_dd (i + 2) (by omega)]
    rfl
  exact String.ext this

lemma ddStr_ne_dotdot (k : Nat) (hk : 2 ≤ k) : ddStr k ≠ ".." := by
  intro h
  have hd := congrArg String.data h
  have hsp := List.splitOn_intercalate (List.replicate k ['.', '.']) '/'
    (fun x hx => by rw [List.eq_of_mem_replicate hx]; decide)
    (by simp; omega)
  rw [show (ddStr k).data =
      List.intercalate ['/'] (List.replicate k ['.', '.']) from rfl] at hd
  rw [hd] at hsp
  have : (("..".data).splitOn '/') = [['.', '.']] := by decide
  rw [this] at hsp
  have hlen := congrArg List.length hsp
  simp at hlen
  omega

lemma loop_ddStr_none (root : String) :
    ∀ n k, 2 ≤ k →
      findKustomizationRootLoop (fun _ => .notFound) root n (ddStr k) = none := by
  intro n
  induction n with
  | zero => intro k _; rfl
  | succ n ih =>
    intro k hk
    rw [findKustomizationRootLoop, if_neg (ddStr_ne_dotdot k hk)]
    show findKustomizationRootLoop _ root n (goClean (goJoin [ddStr k, ".."])) = none
    rw [ddStr_step k (by omega)]
    exact ih (k + 1) (by omega)

/-- Claim C10 counterexample: the relative path ../../a (it does not begin
with a separator) makes the walk climb through ever-growing chains of ".."
elements, never reaching the ".." exit, so no amount of fuel finishes the
loop in a repository without markers. -/
theorem c10_counterexample :
    ¬ fkrTerminates (fun _ => .notFound) "repo" "../../a" ∧
    isRootedC ("../../a".data) = false := by
  constructor
  · rintro ⟨fuel, hfuel⟩
    rw [show goDir "../../a" = ddStr 2 by decide] at hfuel
    rw [loop_ddStr_none "repo" fuel 2 (by omega)] at hfuel
    simp at hfuel
  · decide

lemma cleanC_rooted {s : List Char} (h : isRootedC s = true) :
    isRootedC (cleanC s) = true := by
  obtain ⟨t, rfl⟩ : ∃ t, s = '/' :: t := by
    cases s with
    | nil => simp [isRootedC] at h
    | cons c t =>
      refine ⟨t, ?_⟩
      unfold isRootedC at h
      simp at h
      rw [h]
  unfold cleanC
  rw [if_neg (by simp), h]
  unfold renderP
  rw [if_pos rfl]
  rfl

lemma step_rooted {d : String} (h : isRootedC d.data = true) :
    isRootedC (goClean (goJoin [d, ".."])).data = true := by
  obtain ⟨t, ht⟩ : ∃ t, d.data = '/' :: t := by
    cases hs : d.data with
    | nil => rw [hs] at h; simp [isRootedC] at h
    | cons c u =>
      rw [hs] at h
      unfold isRootedC at h
      simp at h
      exact ⟨u, by rw [h]⟩
  have hjoin : (goJoin [d, ".."]).data = cleanC (d.data ++ '/' :: "..".data) := by
    unfold goJoin joinC
    simp only [List.map_cons, List.map_nil]
    rw [ht]
    simp only [List.dropWhile_cons, List.isEmpty_cons, Bool.false_eq_true, if_false]
    rw [← ht, intercalate_cons₂, intercalate_single, List.append_assoc]
    rfl
  have hrooted₁ : isRootedC (d.data ++ '/' :: "..".data) = true := by
    rw [ht]
    rfl
  unfold goClean
  rw [hjoin]
  exact cleanC_rooted (cleanC_rooted hrooted₁)

lemma goDir_rooted {p : String} (h : isRootedC p.data = true) :
    isRootedC (goDir p).data = true := by
  obtain ⟨t, ht⟩ : ∃ t, p.data = '/' :: t := by
    cases hs : p.data with
    | nil => rw [hs] at h; simp [isRootedC] at h
    | cons c u =>
      rw [hs] at h
      unfold isRootedC at h
      simp at h
      exact ⟨u, by rw [h]⟩
  unfold goDir dirC
  rw [show rawSegs p.data = [] :: (t.splitOn '/') by
    rw [ht]
    unfold rawSegs
    simp [List.splitOn, List.splitOnP_cons]]
  have htne := List.splitOnP_ne_nil (· == '/') t
  obtain ⟨r0, rest, hr⟩ : ∃ r0 rest, t.splitOn '/' = r0 :: rest := by
    cases hI : t.splitOn '/' with
    | nil => exact absurd hI htne
    | cons r0 rest => exact ⟨r0, rest, rfl⟩
  rw [hr]
  simp only [List.length_cons, List.length_nil]
  rw [if_neg (by simp)]
  have hhead : (List.intercalate ['/'] (([] :: r0 :: rest).dropLast) ++ ['/']).head? =
      some '/' := by
    cases rest with
    | nil => rfl
    | cons r1 rest' =>
      rw [show ([] :: r0 :: r1 :: rest').dropLast = [] :: (r0 :: r1 :: rest').dropLast
        from rfl]
      cases hdl : (r0 :: r1 :: rest').dropLast with
      | nil => rfl
      | cons q qs => rw [intercalate_cons₂]; rfl
  apply cleanC_rooted
  unfold isRootedC
  rw [hhead]
  rfl

lemma loop_rooted_none (root : String) :
    ∀ n (d : String), isRootedC d.data = true →
      findKustomizationRootLoop (fun _ => .notFound) root n d = none := by
  intro n
  induction n with
  | zero => intro d _; rfl
  | succ n ih =>
    intro d h
    have hne : d ≠ ".." := by
      intro he
      rw [he] at h
      simp [isRootedC] at h
    rw [findKustomizationRootLoop, if_neg hne]
    show findKustomizationRootLoop _ root n (goClean (goJoin [d, ".."])) = none
    exact ih (goClean (goJoin [d, ".."])) (step_rooted h)

/-- Claim C10 (amended): on every canonical repository-relative path (no
leading separator, no empty, "." or ".." segments) the walk terminates
within the default fuel, for every filesystem; a path whose directory
normalises to two or more leading ".." elements defeats termination (see
the counterexample), and for an absolute path the parent step preserves
absoluteness, so the ".." exit condition is never satisfied and in a
repository without markers the walk never finishes. -/
theorem c10_termination (stat : String → StatResult) (root : String)
    (l : List String) (f : String) (hl : wfSegs l) (hf : wfSeg f) :
    (findKustomizationRoot stat root (pathOfSegs l f)).isSome = true ∧
    fkrTerminates stat root (pathOfSegs l f) ∧
    (∀ p : String, isRootedC p.data = true →
      ∀ n, findKustomizationRootLoop (fun _ => .notFound) root n (goDir p) = none) := by
  refine ⟨?_, ?_, ?_⟩
  · rw [fkr_pathOfSegs stat root l f hl hf]
    rfl
  · refine ⟨fkrFuel (pathOfSegs l f), ?_⟩
    have h : findKustomizationRootLoop stat root (fkrFuel (pathOfSegs l f))
        (goDir (pathOfSegs l f)) = some (walkSpec stat root l) :=
      fkr_pathOfSegs stat root l f hl hf
    rw [h]
    rfl
  · intro p hp n
    exact loop_rooted_none root n (goDir p) (goDir_rooted hp)

/-- Witness for C10: termination on a concrete canonical path, and a
concrete absolute path that never reaches the exit condition. -/
theorem c10_termination_witness :
    (findKustomizationRoot statNoMarker "repo" (pathOfSegs ["a"] "x.yaml")).isSome
      = true ∧
    findKustomizationRootLoop (fun _ => .notFound) "repo" 9 (goDir "/a/b") = none := by
  have h := c10_termination statNoMarker "repo" ["a"] "x.yaml" (by decide) (by decide)
  exact ⟨h.1, h.2.2 "/a/b" (by decide) 9⟩

/-! ### Claim C3 -/

/-- Claim C3 (amended): for an Addition or a Deletion of a path named
kustomization.yaml lying at least one directory below the repository root,
the classifier dispatches both statuses to the same search, that search
walks the chain starting from the parent of the path's own directory, and
its result is never the path's own directory.  (At the repository root
itself the walk starts at the root directory and can resolve to it; see
the counterexample.) -/
theorem c3_marker_named_changes (stat : String → StatResult) (root : String)
    (l : List String) (hl : wfSegs l) (hne : l ≠ []) :
    (getBaseForChange stat root changeStatusAddition
        [pathOfSegs l kustomizationFileName] =
      findKustomizationRootForNew stat root (pathOfSegs l kustomizationFileName)) ∧
    (getBaseForChange stat root changeStatusDeletion
        [pathOfSegs l kustomizationFileName] =
      findKustomizationRootForNew stat root (pathOfSegs l kustomizationFileName)) ∧
    (findKustomizationRootForNew stat root (pathOfSegs l kustomizationFileName) =
      some (walkSpec stat root l.dropLast)) ∧
    (∀ r, findKustomizationRootForNew stat root (pathOfSegs l kustomizationFileName)
        = some (.ok r) → r ≠ dirOfSegs l) := by
  have hkwf : wfSeg kustomizationFileName := by decide
  have hforNew : findKustomizationRootForNew stat root
      (pathOfSegs l kustomizationFileName) = some (walkSpec stat root l.dropLast) := by
    unfold findKustomizationRootForNew
    rw [goBase_pathOfSegs l kustomizationFileName hl hkwf, if_pos rfl,
      goDir_pathOfSegs l kustomizationFileName hl hkwf]
    obtain ⟨m, s, hms⟩ := (List.eq_nil_or_concat l).resolve_left hne
    rw [List.concat_eq_append] at hms
    subst hms
    rw [dirOfSegs_concat m s, List.dropLast_concat]
    exact fkr_pathOfSegs stat root m s (fun x hx => hl x (by simp [hx]))
      (hl s (by simp))
  refine ⟨?_, ?_, hforNew, ?_⟩
  · unfold getBaseForChange
    rw [if_neg (by decide), if_pos (by decide)]
  · unfold getBaseForChange
    rw [if_neg (by decide), if_pos (by decide)]
  · intro r hr
    rw [hforNew] at hr
    have hws : walkSpec stat root l.dropLast = .ok r := by
      have := Option.some.inj hr
      exact this
    rcases walkSpec_ok_shape stat root l.dropLast r hws with hempty | ⟨k, hk, hrk⟩
    · rw [hempty]
      exact (dirOfSegs_ne_empty hl hne).symm
    · have hkl : k < l.length := by
        have : l.dropLast.length = l.length - 1 := List.length_dropLast l
        have hlpos : 0 < l.length := List.length_pos.mpr hne
        omega
      have htake : l.dropLast.take k = l.take k := by
        obtain ⟨m, s, hms⟩ := (List.eq_nil_or_concat l).resolve_left hne
        rw [List.concat_eq_append] at hms
        subst hms
        rw [List.dropLast_concat, List.take_append_of_le_length]
        have : (m ++ [s]).length = m.length + 1 := by simp
        omega
      rw [hrk, htake]
      exact dirOfSegs_take_ne hl hkl

/-- Claim C3 counterexample: for an Addition or Deletion of the root-level
path kustomization.yaml, whose own directory is ".", the search does not
skip that directory: in a repository whose root carries the marker the
classifier resolves to ".", the path's own directory, not to a parent. -/
theorem c3_counterexample :
    findKustomizationRootForNew statMarkerAtRoot "repo" "kustomization.yaml" =
      some (.ok ".") ∧
    goDir "kustomization.yaml" = "." ∧
    getBaseForChange statMarkerAtRoot "repo" changeStatusAddition
      ["kustomization.yaml"] = some (.ok ".") := by
  refine ⟨by decide, by decide, by decide⟩

/-- Witness for C3 on a concrete repository: the marker file a/b/kustomization.yaml
being added or deleted under a repository with a marker at a/ resolves to the
parent root a, which is not its own directory a/b. -/
theorem c3_marker_named_changes_witness :
    getBaseForChange statMarkerAtA "repo" changeStatusAddition
        [pathOfSegs ["a", "b"] kustomizationFileName] =
      findKustomizationRootForNew statMarkerAtA "repo"
        (pathOfSegs ["a", "b"] kustomizationFileName) ∧
    findKustomizationRootForNew statMarkerAtA "repo"
        (pathOfSegs ["a", "b"] kustomizationFileName) =
      some (walkSpec statMarkerAtA "repo" ["a"]) ∧
    "a" ≠ dirOfSegs ["a", "b"] := by
  have h := c3_marker_named_changes statMarkerAtA "repo" ["a", "b"]
    (by decide) (by decide)
  refine ⟨h.1, h.2.2.1, h.2.2.2 "a" ?_⟩
  rw [h.2.2.1]
  show some (walkSpec statMarkerAtA "repo" ["a"]) = some (Except.ok "a")
  have hws : walkSpec statMarkerAtA "repo" ["a"] =
      .ok (dirOfSegs (["a"].take 1)) := by
    refine walkSpec_found statMarkerAtA "repo" ["a"] (by decide) 1 (by decide)
      (fun k hk1 hk2 => by
        have : k ≤ 1 := by simpa using hk2
        omega) (by decide)
  rw [hws]
  rw [show dirOfSegs (["a"].take 1) = "a" by decide]

/-! ### Claim C7 -/

/-- Claim C7: a Rename with source src and destination dst is classified as
the Deletion of src followed by the Addition of dst; both results are
emitted, newline-joined in that order, with no deduplication — a rename of
a/file.yaml to a/file2.yaml inside the root a yields that root twice. -/
theorem c7_rename_emits_both (stat : String → StatResult) (root : String) :
    (∀ src dst r₁ r₂,
      findKustomizationRootForNew stat root src = some (.ok r₁) →
      findKustomizationRootForNew stat root dst = some (.ok r₂) →
      getBaseForChange stat root changeStatusRenaming [src, dst] =
        some (.ok (r₁ ++ "\n" ++ r₂))) ∧
    getBaseForChange statMarkerAtA "repo" changeStatusRenaming
      ["a/file.yaml", "a/file2.yaml"] = some (.ok "a\na") := by
  constructor
  · intro src dst r₁ r₂ h1 h2
    unfold getBaseForChange
    rw [if_neg (by decide), if_neg (by decide), if_neg (by decide),
      if_pos (by decide)]
    simp only [h1, h2]
  · decide

/-- Witness for C7: renaming a/x.yaml to a/y.yaml in a repository whose
marker sits at a yields the root a twice. -/
theorem c7_rename_emits_both_witness :
    getBaseForChange statMarkerAtA "repo" changeStatusRenaming
      ["a/x.yaml", "a/y.yaml"] = some (.ok ("a" ++ "\n" ++ "a")) :=
  (c7_rename_emits_both statMarkerAtA "repo").1 "a/x.yaml" "a/y.yaml" "a" "a"
    (by decide) (by decide)

/-! ### Claim C9 -/

/-- The root a successful search resolves for a path. -/
def fkrOkValue (stat : String → StatResult) (root p : String) : String :=
  match findKustomizationRoot stat root p with
  | some (.ok r) => r
  | _ => ""

lemma fkRootsLoop_ok (stat : String → StatResult) (root : String) :
    ∀ paths acc : List String,
      (∀ p ∈ paths, ∃ r, findKustomizationRoot stat root p = some (.ok r)) →
      ∃ out, findKustomizationRootsLoop stat root acc paths = some (.ok out) ∧
        (∀ x, x ∈ out ↔
          x ∈ acc ∨ (x ≠ "" ∧ ∃ p ∈ paths, fkrOkValue stat root p = x)) ∧
        (acc.Nodup → out.Nodup) ∧ ("" ∉ acc → "" ∉ out) := by
  intro paths
  induction paths with
  | nil =>
    intro acc _
    exact ⟨acc, rfl, by simp, fun h => h, fun h => h⟩
  | cons p rest ih =>
    intro acc hok
    obtain ⟨r, hr⟩ := hok p (by simp)
    have hrval : fkrOkValue stat root p = r := by
      unfold fkrOkValue
      rw [hr]
    have hstep : findKustomizationRootsLoop stat root acc (p :: rest) =
        findKustomizationRootsLoop stat root
          (if r = "" then acc else if r ∈ acc then acc else acc ++ [r]) rest := by
      rw [findKustomizationRootsLoop, hr]
    obtain ⟨out, hout, hmem, hnd, hne⟩ :=
      ih (if r = "" then acc else if r ∈ acc then acc else acc ++ [r])
        (fun q hq => hok q (by simp [hq]))
    have hmemacc : ∀ x,
        x ∈ (if r = "" then acc else if r ∈ acc then acc else acc ++ [r]) ↔
          x ∈ acc ∨ (r ≠ "" ∧ x = r) := by
      intro x
      by_cases hre : r = ""
      · simp [hre]
      · by_cases hrin : r ∈ acc
        · rw [if_neg hre, if_pos hrin]
          constructor
          · exact Or.inl
          · rintro (hx | ⟨-, rfl⟩)
            · exact hx
            · exact hrin
        · rw [if_neg hre, if_neg hrin]
          simp [List.mem_append, hre]
    refine ⟨out, hstep.trans hout, ?_, ?_, ?_⟩
    · intro x
      rw [hmem x, hmemacc x]
      have hsplit : (∃ q ∈ p :: rest, fkrOkValue stat root q = x) ↔
          (fkrOkValue stat root p = x ∨ ∃ q ∈ rest, fkrOkValue stat root q = x) := by
        simp [List.mem_cons, or_and_right, exists_or]
      rw [hsplit, hrval]
      constructor
      · rintro ((hx | ⟨hr0, rfl⟩) | ⟨hx0, hq⟩)
        · exact Or.inl hx
        · exact Or.inr ⟨hr0, Or.inl rfl⟩
        · exact Or.inr ⟨hx0, Or.inr hq⟩
      · rintro (hx | ⟨hx0, rfl | hq⟩)
        · exact Or.inl (Or.inl hx)
        · exact Or.inl (Or.inr ⟨hx0, rfl⟩)
        · exact Or.inr ⟨hx0, hq⟩
    · intro hndacc
      refine hnd ?_
      by_cases hre : r = ""
      · simpa [hre] using hndacc
      · by_cases hrin : r ∈ acc
        · simpa [hre, hrin] using hndacc
        · rw [if_neg hre, if_neg hrin]
          simp [List.nodup_append, hndacc, hrin]
    · intro hneacc
      refine hne ?_
      by_cases hre : r = ""
      · simpa [hre] using hneacc
      · by_cases hrin : r ∈ acc
        · simpa [hre, hrin] using hneacc
        · rw [if_neg hre, if_neg hrin]
          intro hmem0
          rcases List.mem_append.mp hmem0 with h | h
          · exact hneacc h
          · simp at h
            exact hre h.symm

/-- Claim C9: two permutations of the same changed paths resolve to the
same set of build roots; the collection is duplicate-free and empty
results are dropped rather than inserted. -/
theorem c9_roots_order_invariant (stat : String → StatResult) (root : String)
    (l₁ l₂ : List String) (hperm : l₁.Perm l₂)
    (hok : ∀ p ∈ l₁, ∃ r, findKustomizationRoot stat root p = some (.ok r)) :
    ∃ r₁ r₂, findKustomizationRoots stat root l₁ = some (.ok r₁) ∧
      findKustomizationRoots stat root l₂ = some (.ok r₂) ∧
      (∀ x, x ∈ r₁ ↔ x ∈ r₂) ∧ r₁.Nodup ∧ r₂.Nodup ∧ "" ∉ r₁ ∧ "" ∉ r₂ := by
  obtain ⟨r₁, h1, m1, nd1, ne1⟩ := fkRootsLoop_ok stat root l₁ [] hok
  obtain ⟨r₂, h2, m2, nd2, ne2⟩ := fkRootsLoop_ok stat root l₂ []
    (fun p hp => hok p (hperm.mem_iff.mpr hp))
  refine ⟨r₁, r₂, h1, h2, ?_, nd1 List.nodup_nil, nd2 List.nodup_nil,
    ne1 (by simp), ne2 (by simp)⟩
  intro x
  rw [m1 x, m2 x]
  simp only [List.not_mem_nil, false_or]
  constructor
  · rintro ⟨hx, p, hp, hv⟩
    exact ⟨hx, p, hperm.mem_iff.mp hp, hv⟩
  · rintro ⟨hx, p, hp, hv⟩
    exact ⟨hx, p, hperm.mem_iff.mpr hp, hv⟩

/-- Witness for C9 on a concrete repository: the two orders of a pair of
changed paths give the same root set, here the singleton a (one path has
no root and is dropped). -/
theorem c9_roots_order_invariant_witness :
    ∃ r₁ r₂,
      findKustomizationRoots statMarkerAtA "repo" ["a/x.yaml", "b/y.yaml"] =
        some (.ok r₁) ∧
      findKustomizationRoots statMarkerAtA "repo" ["b/y.yaml", "a/x.yaml"] =
        some (.ok r₂) ∧
      (∀ x, x ∈ r₁ ↔ x ∈ r₂) ∧ r₁.Nodup ∧ r₂.Nodup ∧ "" ∉ r₁ ∧ "" ∉ r₂ := by
  refine c9_roots_order_invariant statMarkerAtA "repo"
    ["a/x.yaml", "b/y.yaml"] ["b/y.yaml", "a/x.yaml"] (by decide) ?_
  intro p hp
  have hcases : p = "a/x.yaml" ∨ p = "b/y.yaml" := by simpa using hp
  rcases hcases with rfl | rfl
  · exact ⟨"a", by decide⟩
  · exact ⟨"", by decide⟩

/-! ### Claim C2 -/

lemma remove_ok_members (openF : String → FileRes)
    (parse : String → Except String Kustomization) (root : String) :
    ∀ paths survivors,
      removeComponentKustomizations openF parse root paths = .ok survivors →
      ∀ s ∈ survivors,
        checkIfIsComponent openF parse (goJoin [root, s, kustomizationFileName]) =
          .ok false := by
  intro paths
  induction paths with
  | nil =>
    intro survivors h s hs
    simp only [removeComponentKustomizations, ProcResult.ok.injEq] at h
    subst h
    exact absurd hs (List.not_mem_nil s)
  | cons p rest ih =>
    intro survivors h s hs
    rw [removeComponentKustomizations] at h
    cases hchk : checkIfIsComponent openF parse
        (goJoin [root, p, kustomizationFileName]) with
    | error m =>
      rw [hchk] at h
      exact ProcResult.noConfusion h
    | fatal m =>
      rw [hchk] at h
      exact ProcResult.noConfusion h
    | ok b =>
      rw [hchk] at h
      cases hrest : removeComponentKustomizations openF parse root rest with
      | error m =>
        rw [hrest] at h
        exact ProcResult.noConfusion h
      | fatal m =>
        rw [hrest] at h
        exact ProcResult.noConfusion h
      | ok tail =>
        rw [hrest] at h
        have hsurv : (if b then tail else p :: tail) = survivors := by
          injection h
        cases b with
        | true =>
          rw [if_pos rfl] at hsurv
          subst hsurv
          exact ih tail hrest s hs
        | false =>
          rw [if_neg (by simp)] at hsurv
          subst hsurv
          rcases List.mem_cons.mp hs with rfl | hstail
          · exact hchk
          · exact ih tail hrest s hstail

lemma buildManifests_keys (run : String → CmdOut) (rootDir : String) :
    ∀ roots m, buildManifests run roots rootDir = .ok m →
      m.map Prod.fst = roots := by
  intro roots
  induction roots with
  | nil =>
    intro m h
    simp only [buildManifests, Except.ok.injEq] at h
    subst h
    rfl
  | cons root rest ih =>
    intro m h
    rw [buildManifests] at h
    cases hb : kustomizeBuild run (goJoin [rootDir, root]) with
    | error e =>
      rw [hb] at h
      exact Except.noConfusion h
    | ok pr =>
      obtain ⟨manifest, stderrWarnings⟩ := pr
      rw [hb] at h
      cases hrest : buildManifests run rest rootDir with
      | error e =>
        rw [hrest] at h
        exact Except.noConfusion h
      | ok tail =>
        rw [hrest] at h
        have : (root, manifest) :: tail = m := by injection h
        subst this
        simp [ih tail hrest]

/-- Claim C2: a root whose marker file declares kind Component never
survives the component filter, and therefore never appears as a key of
the build result map, whatever the other roots do. -/
theorem c2_no_component_built (openF : String → FileRes)
    (parse : String → Except String Kustomization) (run : String → CmdOut)
    (rootDir : String) (paths survivors : List String) (r : String)
    (hrem : removeComponentKustomizations openF parse rootDir paths = .ok survivors)
    (hcomp : checkIfIsComponent openF parse
      (goJoin [rootDir, r, kustomizationFileName]) = .ok true) :
    r ∉ survivors ∧
    ∀ m, buildManifests run survivors rootDir = .ok m → ∀ v, (r, v) ∉ m := by
  have hmem : r ∉ survivors := by
    intro hrs
    have hfalse := remove_ok_members openF parse rootDir paths survivors hrem r hrs
    have := hcomp.symm.trans hfalse
    simp at this
  refine ⟨hmem, ?_⟩
  intro m hm v hv
  have hkeys := buildManifests_keys run rootDir survivors m hm
  have hrk : r ∈ m.map Prod.fst := List.mem_map_of_mem Prod.fst hv
  rw [hkeys] at hrk
  exact hmem hrk

/-- Concrete kustomization contents and effect functions for witnesses. -/
def simpleKustomizationYaml : String := "kind: Kustomization"

def componentKustomizationYaml : String := "kind: Component"

def openDemo : String → FileRes := fun p =>
  if p = "repo/comp/kustomization.yaml" then .contents componentKustomizationYaml
  else .contents simpleKustomizationYaml

def parseDemo : String → Except String Kustomization := fun s =>
  if s = componentKustomizationYaml then .ok ⟨"", "Component"⟩
  else if s = simpleKustomizationYaml then .ok ⟨"", "Kustomization"⟩
  else .error "did not find expected node content"

def runDemo : String → CmdOut := fun p => ⟨"manifest for " ++ p, "", none⟩

/-- Witness for C2: of the sibling roots app and comp, the Component root
comp is dropped and cannot be a key of the build result. -/
theorem c2_no_component_built_witness :
    "comp" ∉ ["app"] ∧
    ∀ m, buildManifests runDemo ["app"] "repo" = .ok m → ∀ v, ("comp", v) ∉ m :=
  c2_no_component_built openDemo parseDemo runDemo "repo" ["app", "comp"] ["app"]
    "comp" (by decide) (by decide)

/-! ### Claim C4 -/

/-- Claim C4: the grouping of [file.yaml, aaa/bbb/file.yaml, ccc/file.yaml]
at minDepth 0 is ["", "aaa/bbb/", "ccc/"] and at minDepth 1 is
["aaa/bbb/", "ccc/"]: the root-level file has no component at depth one or
more and drops out; the output is deduplicated, sorted and written with
trailing separators. -/
theorem c4_deepest_common_dirs :
    deepestCommonDirs ["file.yaml", "aaa/bbb/file.yaml", "ccc/file.yaml"] 0 =
      ["", "aaa/bbb/", "ccc/"] ∧
    deepestCommonDirs ["file.yaml", "aaa/bbb/file.yaml", "ccc/file.yaml"] 1 =
      ["aaa/bbb/", "ccc/"] := by
  exact ⟨by decide, by decide⟩

/-! ### Claim C5 -/

lemma remove_error_of_check (openF : String → FileRes)
    (parse : String → Except String Kustomization) (root e : String) :
    ∀ (pre : List String) (r : String) (post : List String),
      (∀ p ∈ pre, ∃ b, checkIfIsComponent openF parse
        (goJoin [root, p, kustomizationFileName]) = .ok b) →
      checkIfIsComponent openF parse (goJoin [root, r, kustomizationFileName]) =
        .error e →
      removeComponentKustomizations openF parse root (pre ++ r :: post) =
        .error e := by
  intro pre
  induction pre with
  | nil =>
    intro r post _ hchk
    rw [List.nil_append, removeComponentKustomizations, hchk]
  | cons q pre' ih =>
    intro r post hpre hchk
    obtain ⟨b, hb⟩ := hpre q (by simp)
    rw [List.cons_append, removeComponentKustomizations, hb,
      ih r post (fun p hp => hpre p (by simp [hp])) hchk]

/-- Claim C5 (amended): a candidate root whose marker file cannot be opened
(briefly unreadable) makes the component filter fail the pipeline with an
error that names the affected marker path: removeComponentKustomizations
returns that error and kustomizeBuildDirs returns it to the top level.  A
marker file that opens but cannot be parsed or read instead terminates the
process through log.Fatal with a message that neither reaches the caller
nor names the root (see the counterexample). -/
theorem c5_open_failure_propagates (env : Env) (outDir : String)
    (doTruncateSecrets : Bool) (filepaths : List String) (rootDir : String)
    (pre post : List String) (r m : String)
    (hwd : env.getwd = .ok rootDir)
    (hk : env.kustomizeOnPath = true)
    (hroots : findKustomizationRoots env.stat rootDir filepaths =
      some (.ok (pre ++ r :: post)))
    (hpre : ∀ p ∈ pre, ∃ b, checkIfIsComponent env.openFile env.parseYaml
      (goJoin [rootDir, p, kustomizationFileName]) = .ok b)
    (hopen : env.openFile (goJoin [rootDir, r, kustomizationFileName]) =
      .openError m) :
    removeComponentKustomizations env.openFile env.parseYaml rootDir
        (pre ++ r :: post) =
      .error ("failed opening kustomization file: "
        ++ goJoin [rootDir, r, kustomizationFileName] ++ ": " ++ m) ∧
    kustomizeBuildDirs env outDir doTruncateSecrets filepaths =
      some (.error ("failed opening kustomization file: "
        ++ goJoin [rootDir, r, kustomizationFileName] ++ ": " ++ m)) := by
  have hchk : checkIfIsComponent env.openFile env.parseYaml
      (goJoin [rootDir, r, kustomizationFileName]) =
      .error ("failed opening kustomization file: "
        ++ goJoin [rootDir, r, kustomizationFileName] ++ ": " ++ m) := by
    unfold checkIfIsComponent
    rw [hopen]
  have hrem := remove_error_of_check env.openFile env.parseYaml rootDir _
    pre r post hpre hchk
  refine ⟨hrem, ?_⟩
  unfold kustomizeBuildDirs checkKustomizeInstalled
  rw [hwd, hk]
  simp only [if_true, hroots, hrem]

/-- Environment whose only marker file parses as invalid YAML. -/
def statMarkerAtBad : String → StatResult := fun p =>
  if p = "repo/bad/kustomization.yaml" then .found else .notFound

def openParseFailDemo : String → FileRes := fun _ => .contents "kind: ["

def envParseFail : Env where
  getwd := .ok "repo"
  kustomizeOnPath := true
  stat := statMarkerAtBad
  openFile := openParseFailDemo
  parseYaml := parseDemo
  runGit := fun _ => ⟨"", "", none⟩
  runKustomize := fun _ => ⟨"", "", none⟩
  truncateFile := fun _ => none
  mkdirAll := fun _ => none
  writeFile := fun _ _ => none

/-- Claim C5 counterexample: when the marker file of root bad opens but
fails to parse, the component filter does not propagate an error naming
the root — checkIfIsComponent calls log.Fatal (the fatal outcome), whose
generic message mentions no root, and the pipeline dies the same way
instead of returning an error value. -/
theorem c5_counterexample :
    removeComponentKustomizations openParseFailDemo parseDemo "repo" ["bad"] =
      .fatal "Error unmarshaling YAML: did not find expected node content" ∧
    kustomizeBuildDirs envParseFail "out" false ["bad/x.yaml"] =
      some (.fatal "Error unmarshaling YAML: did not find expected node content") := by
  exact ⟨by decide, by decide⟩

/-- Environment whose only marker file cannot be opened. -/
def openFailDemo : String → FileRes := fun p =>
  if p = "repo/bad/kustomization.yaml" then .openError "permission denied"
  else .contents simpleKustomizationYaml

def envOpenFail : Env where
  getwd := .ok "repo"
  kustomizeOnPath := true
  stat := statMarkerAtBad
  openFile := openFailDemo
  parseYaml := parseDemo
  runGit := fun _ => ⟨"", "", none⟩
  runKustomize := fun _ => ⟨"", "", none⟩
  truncateFile := fun _ => none
  mkdirAll := fun _ => none
  writeFile := fun _ _ => none

/-- Witness for C5: the unreadable marker of root bad surfaces as an error
naming repo/bad/kustomization.yaml at the top of the pipeline. -/
theorem c5_open_failure_propagates_witness :
    removeComponentKustomizations envOpenFail.openFile envOpenFail.parseYaml
        "repo" ([] ++ "bad" :: []) =
      .error ("failed opening kustomization file: "
        ++ goJoin ["repo", "bad", kustomizationFileName] ++ ": "
        ++ "permission denied") ∧
    kustomizeBuildDirs envOpenFail "out" false ["bad/x.yaml"] =
      some (.error ("failed opening kustomization file: "
        ++ goJoin ["repo", "bad", kustomizationFileName] ++ ": "
        ++ "permission denied")) := by
  refine c5_open_failure_propagates envOpenFail "out" false ["bad/x.yaml"] "repo"
    [] [] "bad" "permission denied" (by decide) (by decide) (by decide) ?_ (by decide)
  intro p hp
  exact absurd hp (List.not_mem_nil p)

/-! ### Claim C6 -/

/-- Claim C6: if every build command exits cleanly, buildManifests returns
a result map and no error; if some command for a root exits non-zero, it
returns an error — the message of one failing root, carrying (ending with)
that command's captured stderr — and no result map. -/
theorem c6_build_errors (run : String → CmdOut) (rootDir : String)
    (roots : List String) :
    ((∀ r ∈ roots, (run (goJoin [rootDir, r])).exitErr = none) →
      ∃ m, buildManifests run roots rootDir = .ok m) ∧
    ((∃ r ∈ roots, (run (goJoin [rootDir, r])).exitErr ≠ none) →
      ∃ r em, r ∈ roots ∧ (run (goJoin [rootDir, r])).exitErr = some em ∧
        buildManifests run roots rootDir =
          .error ("Error running 'kustomize build " ++ goJoin [rootDir, r]
            ++ "': " ++ em ++ "\nstderr: " ++ (run (goJoin [rootDir, r])).stderr) ∧
        ∃ preText, buildManifests run roots rootDir =
          .error (preText ++ (run (goJoin [rootDir, r])).stderr)) := by
  induction roots with
  | nil =>
    constructor
    · intro _
      exact ⟨[], rfl⟩
    · rintro ⟨r, hr, -⟩
      exact absurd hr (List.not_mem_nil r)
  | cons root rest ih =>
    constructor
    · intro hall
      have hroot := hall root (by simp)
      obtain ⟨m, hm⟩ := ih.1 (fun q hq => hall q (by simp [hq]))
      refine ⟨(root, (run (goJoin [rootDir, root])).stdout) :: m, ?_⟩
      rw [buildManifests]
      unfold kustomizeBuild
      rw [hroot, hm]
    · rintro ⟨r, hr, hrfail⟩
      cases hrootErr : (run (goJoin [rootDir, root])).exitErr with
      | some em =>
        refine ⟨root, em, by simp, hrootErr, ?_⟩
        have herr : buildManifests run (root :: rest) rootDir =
            .error ("Error running 'kustomize build " ++ goJoin [rootDir, root]
              ++ "': " ++ em ++ "\nstderr: "
              ++ (run (goJoin [rootDir, root])).stderr) := by
          rw [buildManifests]
          unfold kustomizeBuild
          rw [hrootErr]
        exact ⟨herr, _, herr⟩
      | none =>
        have hrrest : r ∈ rest := by
          rcases List.mem_cons.mp hr with rfl | h
          · exact absurd hrootErr hrfail
          · exact h
        obtain ⟨r', em, hr', hem, herr, preText, hpre⟩ := ih.2 ⟨r, hrrest, hrfail⟩
        have hstep : buildManifests run (root :: rest) rootDir =
            buildManifests run rest rootDir := by
          rw [buildManifests]
          unfold kustomizeBuild
          rw [hrootErr, herr]
        refine ⟨r', em, by simp [hr'], hem, ?_, ?_⟩
        · rw [hstep, herr]
        · exact ⟨preText, by rw [hstep, hpre]⟩

/-- A repository where the build of root b fails and all others succeed. -/
def runFailAtB : String → CmdOut := fun p =>
  if p = "repo/b" then ⟨"", "b is broken", some "exit status 1"⟩
  else ⟨"manifest text", "", none⟩

/-- Witness for C6: two successful roots build a map; with a failing root b
among them the call returns the error carrying the stderr of b. -/
theorem c6_build_errors_witness :
    (∃ m, buildManifests runFailAtB ["a"] "repo" = .ok m) ∧
    (∃ r em, r ∈ ["a", "b"] ∧ (runFailAtB (goJoin ["repo", r])).exitErr = some em ∧
      buildManifests runFailAtB ["a", "b"] "repo" =
        .error ("Error running 'kustomize build " ++ goJoin ["repo", r]
          ++ "': " ++ em ++ "\nstderr: " ++ (runFailAtB (goJoin ["repo", r])).stderr) ∧
      ∃ preText, buildManifests runFailAtB ["a", "b"] "repo" =
        .error (preText ++ (runFailAtB (goJoin ["repo", r])).stderr)) := by
  constructor
  · refine (c6_build_errors runFailAtB "repo" ["a"]).1 ?_
    intro r hr
    have : r = "a" := by simpa using hr
    subst this
    decide
  · exact (c6_build_errors runFailAtB "repo" ["a", "b"]).2
      ⟨"b", by decide, by decide⟩

/-! ### Claim C8 -/

/-- Claim C8: with an empty set of surviving roots, findSecrets returns the
empty list of secrets rather than every file: the git query always carries
the never-matching pathspec not/a/path, so the pathspec list is never
empty, and a repository in which that pathspec matches nothing yields no
matches at all. -/
theorem c8_empty_roots_no_secrets (rootDir : String) (repo : List RepoFile)
    (hroot : rootDir ≠ "--")
    (hnomatch : ∀ f ∈ repo, pathspecMatches f "not/a/path" = false) :
    findSecrets (gitLsFilesModel repo) rootDir [] = .ok [] ∧
    ∀ dirs : List String, "not/a/path" ∈ findSecretsArgs rootDir dirs := by
  constructor
  · have hargs : findSecretsArgs rootDir [] =
        ["-C", rootDir, "ls-files", "-z", "--", "not/a/path"] := by
      unfold findSecretsArgs
      simp
    have hspecs : gitPathspecsOf (findSecretsArgs rootDir []) = ["not/a/path"] := by
      rw [hargs]
      unfold gitPathspecsOf
      rw [List.dropWhile_cons, if_pos (by decide), List.dropWhile_cons,
        if_pos (by simpa using hroot), List.dropWhile_cons, if_pos (by decide),
        List.dropWhile_cons, if_pos (by decide), List.dropWhile_cons,
        if_neg (by simp)]
      rfl
    have hfilter : repo.filter (fun f => (["not/a/path"] : List String).any
        (pathspecMatches f)) = [] := by
      rw [List.filter_eq_nil_iff]
      intro f hf
      simp [hnomatch f hf]
    have hmatched : gitMatchedFiles repo (findSecretsArgs rootDir []) = [] := by
      unfold gitMatchedFiles
      rw [hspecs, if_neg (by simp), hfilter]
    have hstdout : (gitLsFilesModel repo (findSecretsArgs rootDir [])).stdout = "" := by
      unfold gitLsFilesModel
      rw [hmatched]
      rfl
    unfold findSecrets
    rw [show (gitLsFilesModel repo (findSecretsArgs rootDir [])).exitErr = none
      from rfl]
    rw [hstdout]
    rfl
  · intro dirs
    unfold findSecretsArgs
    simp

/-- Witness for C8: a repository holding one strongbox secret under a/ still
yields no secrets when the surviving root set is empty. -/
theorem c8_empty_roots_no_secrets_witness :
    findSecrets (gitLsFilesModel [⟨"a/secret.yaml", true⟩]) "repo" [] = .ok [] ∧
    ∀ dirs : List String, "not/a/path" ∈ findSecretsArgs "repo" dirs := by
  refine c8_empty_roots_no_secrets "repo" [⟨"a/secret.yaml", true⟩] (by decide) ?_
  intro f hf
  have : f = ⟨"a/secret.yaml", true⟩ := by simpa using hf
  subst this
  decide

end ManifestCheckers
